import Mathlib

/-!
Verification of the seal-rs frequency-domain watermark codec.

This file gives a shallow embedding of the core of the repository
(`src/watermark/dct.rs`, `src/watermark/dwt.rs`, `src/watermark/trait.rs`,
`src/media/video.rs`) and proves/refutes the specification claims about it.

Modelling conventions:
* `f64` samples and coefficients are modelled by `ℝ` (exact real semantics);
  vote weights, which only undergo field operations, are modelled by `ℚ` so
  that concrete votes can be evaluated by `decide`.
* An `Array2<f64>` is a `Grid`: explicit dimensions plus a total function
  `ℕ → ℕ → ℝ` (entries outside the dimensions are irrelevant; loops in the
  source only touch in-range entries).
* The algorithms are modelled as constructed by the repository
  (`DctWatermark::new()`: block size 8; `DwtWatermark::new()`: 1 level);
  `watermark/mod.rs` always constructs them with `new()`.
* The `WatermarkError` payloads (Chinese format! messages, io errors, ...)
  are replaced by short fixed strings: no claim depends on the message text,
  only on the variant and on which check produced it.
-/

namespace SealRs

/-- Error taxonomy from `src/error.rs` (payload messages abbreviated,
variants that carry external error types elided to plain constructors). -/
inductive WatermarkError where
  | unsupportedFormat (msg : String)
  | invalidWatermark
  | extractionFailed
  | algorithmError (msg : String)
  | invalidArgument (msg : String)
  | processingError (msg : String)
deriving DecidableEq

/-- `Result<T>` from `src/error.rs`. -/
abbrev WmResult (α : Type) := Except WatermarkError α

/-! ## Bit/text serialization (`src/watermark/trait.rs`, `WatermarkUtils`) -/

/-- One byte to 8 bits, most significant first: the inner loop
`for i in (0..8).rev() { bits.push((byte >> i) & 1) }` of `string_to_bits`. -/
def byteBits (b : ℕ) : List ℕ :=
  (List.range 8).reverse.map (fun i => (b >>> i) &&& 1)

/-- `WatermarkUtils::string_to_bits`.  A Rust `&str` is represented by its
UTF-8 byte sequence (a `List ℕ` of values `< 256`). -/
def stringToBits (s : List ℕ) : List ℕ := s.flatMap byteBits

/-- Reassemble one 8-bit chunk into a byte: the inner loop
`for (i, &bit) in chunk.iter().enumerate() { if bit != 0 { byte |= 1 << (7 - i) } }`
shared by `bits_to_string` and `bits_to_string_lossy`. -/
def chunkToByte (chunk : List ℕ) : ℕ :=
  chunk.enum.foldl (fun acc p => if p.2 ≠ 0 then acc ||| (1 <<< (7 - p.1)) else acc) 0

/-- `bits.chunks(8)` from the Rust slice API (the last chunk may be short).
Written with an explicit eight-element pattern so that the recursion is
structural and concrete instances reduce by evaluation. -/
def chunks8 : List ℕ → List (List ℕ)
  | [] => []
  | b0 :: b1 :: b2 :: b3 :: b4 :: b5 :: b6 :: b7 :: rest =>
    [b0, b1, b2, b3, b4, b5, b6, b7] :: chunks8 rest
  | l => [l]

/-- Is a byte a UTF-8 continuation byte (`0x80..=0xBF`)? -/
def isCont (b : ℕ) : Bool := 0x80 ≤ b && b ≤ 0xBF

/-- UTF-8 validity of a byte sequence: the check performed by Rust's
`String::from_utf8` (RFC 3629: shortest forms only, surrogates and
code points above U+10FFFF rejected). -/
def validUtf8 : List ℕ → Bool
  | [] => true
  | b :: rest =>
    if b ≤ 0x7F then validUtf8 rest
    else if 0xC2 ≤ b && b ≤ 0xDF then
      match rest with
      | c1 :: r => isCont c1 && validUtf8 r
      | [] => false
    else if b = 0xE0 then
      match rest with
      | c1 :: c2 :: r => (0xA0 ≤ c1 && c1 ≤ 0xBF) && isCont c2 && validUtf8 r
      | _ => false
    else if (0xE1 ≤ b && b ≤ 0xEC) || b = 0xEE || b = 0xEF then
      match rest with
      | c1 :: c2 :: r => isCont c1 && isCont c2 && validUtf8 r
      | _ => false
    else if b = 0xED then
      match rest with
      | c1 :: c2 :: r => (0x80 ≤ c1 && c1 ≤ 0x9F) && isCont c2 && validUtf8 r
      | _ => false
    else if b = 0xF0 then
      match rest with
      | c1 :: c2 :: c3 :: r => (0x90 ≤ c1 && c1 ≤ 0xBF) && isCont c2 && isCont c3 && validUtf8 r
      | _ => false
    else if 0xF1 ≤ b && b ≤ 0xF3 then
      match rest with
      | c1 :: c2 :: c3 :: r => isCont c1 && isCont c2 && isCont c3 && validUtf8 r
      | _ => false
    else if b = 0xF4 then
      match rest with
      | c1 :: c2 :: c3 :: r => (0x80 ≤ c1 && c1 ≤ 0x8F) && isCont c2 && isCont c3 && validUtf8 r
      | _ => false
    else false

/-- `WatermarkUtils::bits_to_string` (strict mode). -/
def bitsToString (bits : List ℕ) : WmResult (List ℕ) :=
  if bits.length % 8 ≠ 0 then .error .invalidWatermark
  else
    let bytes := (chunks8 bits).map chunkToByte
    if validUtf8 bytes then .ok bytes else .error .invalidWatermark

/-! ## Grids

An `ndarray::Array2<f64>` of shape `(rows, cols)`.  Entries are read through a
total function; only indices below the dimensions are ever consulted by the
modelled code. -/

structure Grid where
  rows : ℕ
  cols : ℕ
  data : ℕ → ℕ → ℝ

/-- The all-zero grid (`Array2::zeros`). -/
def zeroGrid (r c : ℕ) : Grid := ⟨r, c, fun _ _ => 0⟩

/-! ## Haar wavelet codec (`src/watermark/dwt.rs`), as built by
`DwtWatermark::new()` (one decomposition level). -/

/-- The shape test `(n & (n - 1)) != 0` used by `DwtWatermark::{embed, extract}`.
For `n = 0` Rust's release-mode wrap-around gives `0 & usize::MAX = 0` and the
truncated `ℕ` subtraction gives `0 &&& 0 = 0`: both accept `n = 0`, so the
`ℕ` model is faithful on the whole `usize` range. -/
def dwtShapeOk (n : ℕ) : Bool := n &&& (n - 1) == 0

/-- `DwtWatermark::haar_forward_1d` on a prefix of length `n` of a sample
sequence.  For `n < 2` or `n` not a power of two the input is returned
unchanged; indices `≥ n` are never read back by the 2-D pass, and are kept
as-is.  The low half receives `(a+b)/√2`, the high half `(a-b)/√2`. -/
noncomputable def haarForward1d (n : ℕ) (x : ℕ → ℝ) : ℕ → ℝ :=
  if n < 2 ∨ ¬ dwtShapeOk n then x
  else fun i =>
    if i < n / 2 then (x (2 * i) + x (2 * i + 1)) / Real.sqrt 2
    else if i < n then (x (2 * (i - n / 2)) - x (2 * (i - n / 2) + 1)) / Real.sqrt 2
    else x i

/-- `DwtWatermark::haar_inverse_1d`. -/
noncomputable def haarInverse1d (n : ℕ) (x : ℕ → ℝ) : ℕ → ℝ :=
  if n < 2 ∨ ¬ dwtShapeOk n then x
  else fun i =>
    if i < n then
      let k := i / 2
      let avg := x k / Real.sqrt 2
      let diff := x (n / 2 + k) / Real.sqrt 2
      if i % 2 = 0 then avg + diff else avg - diff
    else x i

/-- `DwtWatermark::haar_forward_2d` on the top-left `r × c` window:
transform every row, then every column. -/
noncomputable def haarForward2d (r c : ℕ) (f : ℕ → ℕ → ℝ) : ℕ → ℕ → ℝ :=
  let rowPass := fun i j => haarForward1d c (f i) j
  fun i j => haarForward1d r (fun i' => rowPass i' j) i

/-- `DwtWatermark::haar_inverse_2d`: inverse-transform every column, then
every row. -/
noncomputable def haarInverse2d (r c : ℕ) (f : ℕ → ℕ → ℝ) : ℕ → ℕ → ℝ :=
  let colPass := fun i j => haarInverse1d r (fun i' => f i' j) i
  fun i j => haarInverse1d c (colPass i) j

/-- Apply a 2-D transform to the top-left `r × c` sub-array and write it
back (`result.slice_mut(s![0..rows, 0..cols]).assign(&transformed)`); the
transforms above only read inside that window, so restricting the input is
unnecessary. -/
noncomputable def applyOn (r c : ℕ) (t : ℕ → ℕ → (ℕ → ℕ → ℝ) → ℕ → ℕ → ℝ)
    (f : ℕ → ℕ → ℝ) : ℕ → ℕ → ℝ :=
  fun i j => if i < r ∧ j < c then t r c f i j else f i j

/-- `DwtWatermark::multilevel_forward`: per level, stop if a dimension drops
below 2, otherwise transform the current low-frequency window and recurse
into its top-left quadrant. -/
noncomputable def multilevelForward : ℕ → ℕ → ℕ → (ℕ → ℕ → ℝ) → ℕ → ℕ → ℝ
  | 0, _, _, f => f
  | l + 1, r, c, f =>
    if r < 2 ∨ c < 2 then f
    else multilevelForward l (r / 2) (c / 2) (applyOn r c haarForward2d f)

/-- `DwtWatermark::multilevel_inverse`: reconstruct the levels in reverse
order, skipping degenerate sizes. -/
noncomputable def multilevelInverse : ℕ → ℕ → ℕ → (ℕ → ℕ → ℝ) → ℕ → ℕ → ℝ
  | 0, _, _, f => f
  | l + 1, r, c, f =>
    let g := multilevelInverse l (r / 2) (c / 2) f
    if r < 2 ∨ c < 2 then g else applyOn r c haarInverse2d g

/-- `DwtWatermark::get_high_freq_positions`: up to 4×4 windows in the HH,
HL and LH sub-bands, in that order, each window scanned row-major. -/
def highFreqPositions (rows cols : ℕ) : List (ℕ × ℕ) :=
  let halfRows := rows / 2
  let halfCols := cols / 2
  let hh := (List.range' halfRows (min rows (halfRows + 4) - halfRows)).flatMap
    (fun i => (List.range' halfCols (min cols (halfCols + 4) - halfCols)).map (fun j => (i, j)))
  let hl := (List.range' 0 (min halfRows 4)).flatMap
    (fun i => (List.range' halfCols (min cols (halfCols + 4) - halfCols)).map (fun j => (i, j)))
  let lh := (List.range' halfRows (min rows (halfRows + 4) - halfRows)).flatMap
    (fun i => (List.range' 0 (min halfCols 4)).map (fun j => (i, j)))
  hh ++ hl ++ lh

/-- Message of the shape error in `DwtWatermark::{embed, extract}`
("DWT要求数据尺寸是2的幂"). -/
def dwtShapeMsg : String := "DWT dimensions must be powers of two"

/-- Message of the capacity error in `DwtWatermark::embed`
("水印数据太长，超过了可嵌入的位置数"). -/
def dwtCapacityMsg : String := "watermark too long for embeddable positions"

/-- Message of the length error in `DwtWatermark::extract`
("期望长度超过了可提取的位置数"). -/
def dwtLengthMsg : String := "expected length exceeds extractable positions"

/-- One step of the coefficient update loop of `DwtWatermark::embed`: at an
in-bounds position, add (bit 1) or subtract (bit 0) `strength * |coeff|` to
the coefficient there. -/
noncomputable def dwtUpdateCoeff (rows cols : ℕ) (s : ℝ) (d : ℕ → ℕ → ℝ)
    (pb : (ℕ × ℕ) × ℕ) : ℕ → ℕ → ℝ :=
  let p := pb.1
  let bit := pb.2
  if p.1 < rows ∧ p.2 < cols then
    fun i j =>
      if i = p.1 ∧ j = p.2 then
        (if bit = 1 then d p.1 p.2 + s * |d p.1 p.2| else d p.1 p.2 - s * |d p.1 p.2|)
      else d i j
  else d

/-- The full update loop: fold `dwtUpdateCoeff` over the `(position, bit)`
pairs. -/
noncomputable def dwtEmbedCoeffs (rows cols : ℕ) (dwt : ℕ → ℕ → ℝ)
    (positions : List (ℕ × ℕ)) (wm : List ℕ) (s : ℝ) : ℕ → ℕ → ℝ :=
  ((positions.take wm.length).zip wm).foldl (dwtUpdateCoeff rows cols s) dwt

/-- `DwtWatermark::embed` (`levels = 1`). -/
noncomputable def dwtEmbed (g : Grid) (wm : List ℕ) (s : ℝ) : WmResult Grid :=
  if ¬ dwtShapeOk g.rows ∨ ¬ dwtShapeOk g.cols then
    .error (.invalidArgument dwtShapeMsg)
  else
    let dwt := multilevelForward 1 g.rows g.cols g.data
    let positions := highFreqPositions g.rows g.cols
    if wm.length > positions.length then .error (.invalidArgument dwtCapacityMsg)
    else
      let modified := dwtEmbedCoeffs g.rows g.cols dwt positions wm s
      .ok ⟨g.rows, g.cols, multilevelInverse 1 g.rows g.cols modified⟩

/-- `DwtWatermark::extract` (`levels = 1`): read the sign (`≥ 0 → 1`) of the
first `expected_length` table coefficients; the bound check `row < rows &&
col < cols` of the loop is kept as a filter. -/
noncomputable def dwtExtract (g : Grid) (expectedLength : ℕ) : WmResult (List ℕ) :=
  if ¬ dwtShapeOk g.rows ∨ ¬ dwtShapeOk g.cols then
    .error (.invalidArgument dwtShapeMsg)
  else
    let dwt := multilevelForward 1 g.rows g.cols g.data
    let positions := highFreqPositions g.rows g.cols
    if expectedLength > positions.length then .error (.invalidArgument dwtLengthMsg)
    else
      .ok (((positions.take expectedLength).filter
              (fun p => decide (p.1 < g.rows ∧ p.2 < g.cols))).map
            (fun p => if (0 : ℝ) ≤ dwt p.1 p.2 then 1 else 0))

/-! ## Block DCT codec (`src/watermark/dct.rs`), as built by
`DctWatermark::new()` (block size 8).

`rustdct`'s `process_dct2` computes the unscaled DCT-II
`X_k = Σ_j x_j cos(π k (2j+1) / (2N))` and `process_dct3` the unscaled
DCT-III `X_k = x_0/2 + Σ_{j≥1} x_j cos(π j (2k+1) / (2N))`; these standard
definitions model the external transform calls. -/

/-- Unscaled DCT-II of the first `n` entries (`process_dct2`). -/
noncomputable def dct2 (n : ℕ) (x : ℕ → ℝ) : ℕ → ℝ := fun k =>
  ∑ j ∈ Finset.range n, x j * Real.cos (Real.pi * k * (2 * j + 1) / (2 * n))

/-- Unscaled DCT-III of the first `n` entries (`process_dct3`). -/
noncomputable def dct3 (n : ℕ) (x : ℕ → ℝ) : ℕ → ℝ := fun k =>
  x 0 / 2 + ∑ j ∈ Finset.Ico 1 n, x j * Real.cos (Real.pi * j * (2 * k + 1) / (2 * n))

/-- `DctWatermark::dct_2d` on an `r × c` block: DCT-II of every row, then of
every column. -/
noncomputable def dct2d (r c : ℕ) (f : ℕ → ℕ → ℝ) : ℕ → ℕ → ℝ :=
  let rowPass := fun i j => dct2 c (f i) j
  fun i j => dct2 r (fun i' => rowPass i' j) i

/-- `DctWatermark::idct_2d`: DCT-III of every column, then of every row,
then division by `2 * cols`. -/
noncomputable def idct2d (r c : ℕ) (f : ℕ → ℕ → ℝ) : ℕ → ℕ → ℝ :=
  let colPass := fun i j => dct3 r (fun i' => f i' j) i
  fun i j => dct3 c (colPass i) j / (2 * c)

/-- `DctWatermark::get_mid_frequency_positions`: the 20-entry mid-frequency
coefficient table. -/
def midFreqPositions : List (ℕ × ℕ) :=
  [(2, 1), (1, 2), (3, 1), (2, 2), (1, 3),
   (4, 1), (3, 2), (2, 3), (1, 4), (5, 1),
   (4, 2), (3, 3), (2, 4), (1, 5), (6, 1),
   (5, 2), (4, 3), (3, 4), (2, 5), (1, 6)]

/-- Rust's `usize::div_ceil`. -/
def divCeil (a b : ℕ) : ℕ := (a + b - 1) / b

/-- `DctWatermark::pad_to_block_size` as a data function: edge-mirror the
right band, then the bottom band (a bottom cell reads its mirrored row,
which is itself already right-mirrored, so both reflections compose). -/
def padData (h w : ℕ) (f : ℕ → ℕ → ℝ) : ℕ → ℕ → ℝ := fun i j =>
  let i' := if i < h then i else h - 1 - min (i - h) (h - 1)
  let j' := if j < w then j else w - 1 - min (j - w) (w - 1)
  f i' j'

/-- The 8×8 block with row-major index `k` of a padded grid with `bw` blocks
per row (`block_y = k / bw`, `block_x = k % bw`). -/
def blockOf (f : ℕ → ℕ → ℝ) (bw k : ℕ) : ℕ → ℕ → ℝ := fun a b =>
  f ((k / bw) * 8 + a) ((k % bw) * 8 + b)

/-- `DctWatermark::calculate_block_variance` of an 8×8 block. -/
noncomputable def blockVariance (block : ℕ → ℕ → ℝ) : ℝ :=
  let mean := (∑ i ∈ Finset.range 8, ∑ j ∈ Finset.range 8, block i j) / 64
  (∑ i ∈ Finset.range 8, ∑ j ∈ Finset.range 8, (block i j - mean) ^ 2) / 64

/-- `DctWatermark::calculate_adaptive_threshold`: with block size 8 every
table entry passes the `u < block_size && v < block_size` guard, so the
coefficient list is the full 20-entry table (never empty). -/
noncomputable def adaptiveThreshold (dctBlock : ℕ → ℕ → ℝ) (baseStrength : ℝ) : ℝ :=
  let coeffs := midFreqPositions.map (fun p => |dctBlock p.1 p.2|)
  let meanCoeff := coeffs.sum / (coeffs.length : ℝ)
  min (max (meanCoeff * baseStrength * 0.1) 1) 5

/-- The conditional sign-embedding update of `DctWatermark::embed`
(lines 252–285): the new value of the selected DCT coefficient. -/
noncomputable def dctUpdatedCoeff (dctBlock block : ℕ → ℕ → ℝ) (u v : ℕ)
    (bit : ℕ) (strength : ℝ) : ℝ :=
  let coeff := dctBlock u v
  let magnitude := |coeff|
  let thr := adaptiveThreshold dctBlock strength
  let perceptualWeight : ℝ := if blockVariance block < 10 then 0.5 else 1
  let targetChange := strength * max magnitude 1 * perceptualWeight
  if bit = 1 then
    if thr ≤ coeff + targetChange then coeff + targetChange
    else max magnitude thr + targetChange * 0.5
  else
    if coeff - targetChange ≤ -thr then coeff - targetChange
    else -(max magnitude thr + targetChange * 0.5)

/-- The DCT block of padded block `k` after the `k`-th watermark bit has been
embedded at table position `k % 20`. -/
noncomputable def embeddedDctBlock (pad : ℕ → ℕ → ℝ) (bw k : ℕ) (bit : ℕ)
    (strength : ℝ) : ℕ → ℕ → ℝ :=
  let block := blockOf pad bw k
  let d := dct2d 8 8 block
  let p := midFreqPositions.getD (k % 20) (0, 0)
  fun a b => if a = p.1 ∧ b = p.2 then dctUpdatedCoeff d block p.1 p.2 bit strength else d a b

/-- Message of the capacity error in `DctWatermark::embed`
("水印数据太长，超过了可嵌入的块数…"). -/
def dctCapacityMsg : String := "watermark too long for available blocks"

/-- Message of the length error in `DctWatermark::extract`
("期望长度…超过了可提取的块数…"). -/
def dctLengthMsg : String := "expected length exceeds available blocks"

/-- `DctWatermark::embed`.  The nested `block_y`/`block_x` loop visits blocks
row-major and consumes exactly one watermark bit per block (`u, v < 8` holds
for every table entry), so padded block `k` is replaced by
`idct2d (embeddedDctBlock … k (wm[k]))` for `k < wm.len()` and left as the
padded original otherwise; the result is then cropped to the original shape. -/
noncomputable def dctEmbedData (g : Grid) (wm : List ℕ) (strength : ℝ) : ℕ → ℕ → ℝ :=
  fun i j =>
    let bw := divCeil g.cols 8
    let k := (i / 8) * bw + j / 8
    if i < g.rows ∧ j < g.cols ∧ k < wm.length then
      idct2d 8 8 (embeddedDctBlock (padData g.rows g.cols g.data) bw k
        (wm.getD k 0) strength) (i % 8) (j % 8)
    else g.data i j

/-- `DctWatermark::embed`, continued: the guarded capacity check and the
cropped result grid. -/
noncomputable def dctEmbed (g : Grid) (wm : List ℕ) (strength : ℝ) : WmResult Grid :=
  if wm.length > divCeil g.rows 8 * divCeil g.cols 8 then
    .error (.invalidArgument dctCapacityMsg)
  else .ok ⟨g.rows, g.cols, dctEmbedData g wm strength⟩

/-- `DctWatermark::extract`: per block `k < expected_length` (row-major, one
bit per block as in `embed`), the sign of the DCT coefficient at table
position `k % 20` (`≥ 0 → 1`, `< 0 → 0`). -/
noncomputable def dctExtract (g : Grid) (expectedLength : ℕ) : WmResult (List ℕ) :=
  let bh := divCeil g.rows 8
  let bw := divCeil g.cols 8
  if expectedLength > bh * bw then .error (.invalidArgument dctLengthMsg)
  else
    let pad := padData g.rows g.cols g.data
    .ok ((List.range expectedLength).map (fun k =>
      let d := dct2d 8 8 (blockOf pad bw k)
      let p := midFreqPositions.getD (k % 20) (0, 0)
      if (0 : ℝ) ≤ d p.1 p.2 then 1 else 0))

/-! ## Voting (`src/watermark/trait.rs::extract_with_voting` and
`src/media/video.rs::vote_watermark_bits`) -/

/-- One voting round of `WatermarkUtils::extract_with_voting`: a successful
extraction adds `+1` to the count of each position whose bit is 1 and `-1`
otherwise (positions beyond the extracted length are untouched); a failed
round is skipped. -/
def voteRound (res : WmResult (List ℕ)) (counts : List ℤ) : List ℤ :=
  match res with
  | .ok bits =>
    counts.mapIdx (fun i c =>
      if i < bits.length then (if bits.getD i 0 = 1 then c + 1 else c - 1) else c)
  | .error _ => counts

/-- `WatermarkUtils::extract_with_voting`.  The `&dyn WatermarkAlgorithm` is
modelled by the extraction function itself. -/
def extractWithVoting (ext : Grid → ℕ → WmResult (List ℕ)) (data : Grid)
    (expectedLength voteRounds : ℕ) : WmResult (List ℕ) :=
  if voteRounds = 0 then ext data expectedLength
  else
    .ok ((((List.range voteRounds).foldl
      (fun cs _ => voteRound (ext data expectedLength) cs)
      (List.replicate expectedLength (0 : ℤ)))).map (fun c => if 0 < c then 1 else 0))

/-- The closed set of algorithms (`watermark/mod.rs`: `Algorithm::{Dct, Dwt}`,
both constructed with `new()`). -/
inductive AlgoChoice where
  | dct
  | dwt

/-- Dispatch of `WatermarkAlgorithm::extract` over the algorithm tag. -/
noncomputable def algoExtract : AlgoChoice → Grid → ℕ → WmResult (List ℕ)
  | .dct => dctExtract
  | .dwt => dwtExtract

/-- The votes collected at bit position `p` by
`VideoWatermarker::vote_watermark_bits`: one `(bit, weight)` pair per frame
whose extracted bit sequence is long enough, in frame order. -/
def votesAt (results : List (List ℕ × ℚ)) (p : ℕ) : List (ℕ × ℚ) :=
  results.filterMap (fun bw =>
    if p < bw.1.length then some (bw.1.getD p 0, bw.2) else none)

/-- The per-position body of the voting loop of
`VideoWatermarker::vote_watermark_bits`: winning bit, per-position
confidence, and whether the position had any votes (an empty position pushes
bit 0 and skips the confidence accumulation).  Weights are summed with any
bit value `≠ 0` counted as a vote for 1, the winner needs strictly more
weight (`weight_1 > weight_0`, ties resolve to 0), and the confidence is
`weight_1.max(weight_0) / total_weight`. -/
def votePos (results : List (List ℕ × ℚ)) (p : ℕ) : ℕ × ℚ × Bool :=
  let votes := votesAt results p
  if votes = [] then (0, 0, false)
  else
    let w0 := ((votes.filter (fun v => v.1 == 0)).map (·.2)).sum
    let w1 := ((votes.filter (fun v => v.1 != 0)).map (·.2)).sum
    let total := (votes.map (·.2)).sum
    ((if w0 < w1 then 1 else 0), max w1 w0 / total, true)

/-- `VideoWatermarker::vote_watermark_bits`, bit/confidence part (the final
conversion of the winning bits to text is a separate step of the function and
not modelled here).  `expected_length` counts characters: there are
`expected_length * 8` bit positions.  The overall confidence divides the
summed per-position confidences by the number of positions. -/
def voteWatermarkBits (results : List (List ℕ × ℚ)) (expectedLength : ℕ) :
    List ℕ × ℚ :=
  if results = [] then ([], 0)
  else
    let perPos := (List.range (expectedLength * 8)).map (votePos results)
    let finalBits := perPos.map (·.1)
    let confidenceSum := (perPos.map (fun t => if t.2.2 then t.2.1 else 0)).sum
    let overall := if finalBits = [] then 0 else confidenceSum / (finalBits.length : ℚ)
    (finalBits, overall)

/-! ## Capacity formulas (`src/media/image.rs::check_watermark_capacity`) -/

/-- DCT capacity: `width.div_ceil(8) * height.div_ceil(8)`, which also equals
the `total_blocks` bound inside `DctWatermark::{embed, extract}`. -/
def dctCapacity (h w : ℕ) : ℕ := divCeil h 8 * divCeil w 8

/-- Round up to an even number (the DWT branch of the capacity check). -/
def padEven (n : ℕ) : ℕ := if n % 2 = 0 then n else n + 1

/-- DWT capacity as computed by `check_watermark_capacity`:
`(pad_even(width) * pad_even(height)) / 4`. -/
def dwtCheckCapacity (w h : ℕ) : ℕ := padEven w * padEven h / 4

/-- Auxiliary cosine sum `Σ_{k<n} cos (π t (2k+1) / (2n))` used to analyse
the DCT-II/DCT-III composition. -/
noncomputable def cosSum (n : ℕ) (t : ℤ) : ℝ :=
  ∑ k ∈ Finset.range n, Real.cos (Real.pi * t * (2 * k + 1) / (2 * n))

/-! # Theorems -/

/-- Invariance helper: `byteBits` always produces 8 bits. -/
theorem byteBits_length (b : ℕ) : (byteBits b).length = 8 := by
  simp [byteBits]

set_option maxRecDepth 20000 in
/-- Reassembling the MSB-first bits of a byte `< 256` gives the byte back. -/
theorem chunkToByte_byteBits : ∀ b, b < 256 → chunkToByte (byteBits b) = b := by
  decide

/-- `chunks8` splits off a full leading chunk. -/
theorem chunks8_cons (c rest : List ℕ) (hc : c.length = 8) :
    chunks8 (c ++ rest) = c :: chunks8 rest := by
  rcases c with _ | ⟨b0, c⟩; · simp at hc
  rcases c with _ | ⟨b1, c⟩; · simp at hc
  rcases c with _ | ⟨b2, c⟩; · simp at hc
  rcases c with _ | ⟨b3, c⟩; · simp at hc
  rcases c with _ | ⟨b4, c⟩; · simp at hc
  rcases c with _ | ⟨b5, c⟩; · simp at hc
  rcases c with _ | ⟨b6, c⟩; · simp at hc
  rcases c with _ | ⟨b7, c⟩; · simp at hc
  have hnil : c = [] := by
    simp only [List.length_cons] at hc
    exact List.length_eq_zero.mp (by omega)
  subst hnil
  rfl

/-- Splitting the bit stream of a byte list back into bytes is lossless. -/
theorem chunks8_stringToBits (s : List ℕ) (hs : ∀ b ∈ s, b < 256) :
    (chunks8 (stringToBits s)).map chunkToByte = s := by
  induction s with
  | nil => simp [stringToBits, chunks8]
  | cons a t ih =>
    have ha : a < 256 := hs a (by simp)
    have ht : ∀ b ∈ t, b < 256 := fun b hb => hs b (by simp [hb])
    have : stringToBits (a :: t) = byteBits a ++ stringToBits t := by
      simp [stringToBits]
    rw [this, chunks8_cons _ _ (byteBits_length a)]
    simp [chunkToByte_byteBits a ha, ih ht]

/-- The bit stream of a byte list has 8 bits per byte. -/
theorem stringToBits_length (s : List ℕ) : (stringToBits s).length = 8 * s.length := by
  induction s with
  | nil => simp [stringToBits]
  | cons a t ih =>
    have : stringToBits (a :: t) = byteBits a ++ stringToBits t := by
      simp [stringToBits]
    rw [this, List.length_append, byteBits_length, ih, List.length_cons]
    ring

/-- C8: for every valid UTF-8 string (given by its bytes),
`bits_to_string(string_to_bits(s))` returns `s`, and `string_to_bits`
produces exactly 8 bits per byte, most-significant-bit first. -/
theorem C8_string_bits_roundtrip (s : List ℕ) (hbytes : ∀ b ∈ s, b < 256)
    (hvalid : validUtf8 s = true) :
    bitsToString (stringToBits s) = .ok s ∧
    (stringToBits s).length = 8 * s.length ∧
    stringToBits s = s.flatMap (fun b =>
      [b / 128 % 2, b / 64 % 2, b / 32 % 2, b / 16 % 2,
       b / 8 % 2, b / 4 % 2, b / 2 % 2, b % 2]) := by
  refine ⟨?_, stringToBits_length s, ?_⟩
  · have hlen : (stringToBits s).length % 8 = 0 := by
      simp [stringToBits_length, Nat.mul_mod_right]
    have hchunks := chunks8_stringToBits s hbytes
    simp [bitsToString, hlen, hchunks, hvalid]
  · unfold stringToBits
    congr 1
    funext b
    have hrange : List.range 8 = [0, 1, 2, 3, 4, 5, 6, 7] := rfl
    simp [byteBits, hrange, Nat.shiftRight_eq_div_pow, Nat.and_one_is_mod]

/-- Witness for C8 at `"Hi"` (UTF-8 bytes `[0x48, 0x69]`): the round trip
returns `"Hi"` and `string_to_bits("Hi")` has 16 bits. -/
theorem C8_string_bits_roundtrip_witness :
    bitsToString (stringToBits [0x48, 0x69]) = .ok [0x48, 0x69] ∧
    (stringToBits [0x48, 0x69]).length = 16 := by
  have h := C8_string_bits_roundtrip [0x48, 0x69] (by decide) (by decide)
  exact ⟨h.1, h.2.1⟩

/-- C7: strict `bits_to_string` fails with `InvalidWatermark` on every bit
sequence whose length is not divisible by 8 (regardless of content), and on
every 8-divisible sequence whose reassembled bytes are not valid UTF-8. -/
theorem C7_bits_to_string_invalid (bits : List ℕ) :
    (bits.length % 8 ≠ 0 → bitsToString bits = .error .invalidWatermark) ∧
    (bits.length % 8 = 0 → validUtf8 ((chunks8 bits).map chunkToByte) = false →
      bitsToString bits = .error .invalidWatermark) := by
  constructor
  · intro h
    simp [bitsToString, h]
  · intro h hv
    simp [bitsToString, h, hv]

/-- Witness for C7: a 17-bit all-ones sequence is rejected, and so are the
8 bits of the lone continuation byte `0x80`. -/
theorem C7_bits_to_string_invalid_witness :
    bitsToString (List.replicate 17 1) = .error .invalidWatermark ∧
    bitsToString [1, 0, 0, 0, 0, 0, 0, 0] = .error .invalidWatermark := by
  exact ⟨(C7_bits_to_string_invalid _).1 (by decide),
         (C7_bits_to_string_invalid _).2 (by decide) (by decide)⟩

/-- The winning bit of a position is decided by the larger summed weight
(ties, including vote-less positions, resolve to 0). -/
theorem votePos_fst (results : List (List ℕ × ℚ)) (p : ℕ) :
    (votePos results p).1 =
      if (((votesAt results p).filter (fun v => v.1 == 0)).map (·.2)).sum <
          (((votesAt results p).filter (fun v => v.1 != 0)).map (·.2)).sum
      then 1 else 0 := by
  unfold votePos
  by_cases hv : votesAt results p = []
  · simp [hv]
  · simp [hv]

/-- The confidence contribution of a position: 0 for a vote-less position,
`winning-weight / total-weight` otherwise. -/
theorem votePos_conf (results : List (List ℕ × ℚ)) (p : ℕ) :
    (if (votePos results p).2.2 then (votePos results p).2.1 else 0) =
      if votesAt results p = [] then 0
      else
        max (((votesAt results p).filter (fun v => v.1 != 0)).map (·.2)).sum
            (((votesAt results p).filter (fun v => v.1 == 0)).map (·.2)).sum /
          ((votesAt results p).map (·.2)).sum := by
  unfold votePos
  by_cases hv : votesAt results p = []
  · simp [hv]
  · simp [hv]

/-- C4 (counterexample): `vote_watermark_bits` cannot return the 3-bit vector
the claim describes — `expected_length` counts characters, so the example
votes fill 3 of `1 * 8 = 8` bit positions; the remaining positions default to
bit 0 with confidence contribution 0, giving overall confidence `1/3`, not
`≈ 0.889`. -/
theorem C4_vote_counterexample :
    voteWatermarkBits [([1, 0, 1], 1), ([1, 1, 1], 2)] 1 =
      ([1, 1, 1, 0, 0, 0, 0, 0], 1 / 3) ∧
    ([1, 1, 1, 0, 0, 0, 0, 0] : List ℕ) ≠ [1, 1, 1] ∧
    (1 / 3 : ℚ) ≠ 8 / 9 := by
  refine ⟨?_, by decide, by norm_num⟩
  have hr : List.range (1 * 8) = [0, 1, 2, 3, 4, 5, 6, 7] := rfl
  simp [voteWatermarkBits, votePos, votesAt, hr]
  norm_num

/-- C4 (amended): `vote_watermark_bits(results, expected_length)` works on
`expected_length * 8` bit positions.  Each position is decided by the larger
summed weight (any bit value `≠ 0` votes for 1; ties and vote-less positions
resolve to 0), and the overall confidence is the sum over all positions of
`winning-weight / total-weight` (0 for a vote-less position) divided by the
number of positions.  On the claim's example with `expected_length = 1` this
yields bits `[1,1,1,0,0,0,0,0]` and overall confidence `1/3`. -/
theorem C4_vote_amended (results : List (List ℕ × ℚ)) (expectedLength : ℕ)
    (hne : results ≠ []) :
    (voteWatermarkBits results expectedLength).1.length = expectedLength * 8 ∧
    (∀ p, p < expectedLength * 8 →
      (voteWatermarkBits results expectedLength).1.getD p 0 =
        if (((votesAt results p).filter (fun v => v.1 == 0)).map (·.2)).sum <
            (((votesAt results p).filter (fun v => v.1 != 0)).map (·.2)).sum
        then 1 else 0) ∧
    (∀ p, p < expectedLength * 8 → votesAt results p = [] →
      (voteWatermarkBits results expectedLength).1.getD p 0 = 0) ∧
    (voteWatermarkBits results expectedLength).2 =
      ((List.range (expectedLength * 8)).map (fun p =>
        if votesAt results p = [] then 0
        else
          max (((votesAt results p).filter (fun v => v.1 != 0)).map (·.2)).sum
              (((votesAt results p).filter (fun v => v.1 == 0)).map (·.2)).sum /
            ((votesAt results p).map (·.2)).sum)).sum /
        ((expectedLength * 8 : ℕ) : ℚ) := by
  have hfst : (voteWatermarkBits results expectedLength).1 =
      (List.range (expectedLength * 8)).map (fun p => (votePos results p).1) := by
    simp [voteWatermarkBits, hne, List.map_map, Function.comp_def]
  have hlen : (voteWatermarkBits results expectedLength).1.length = expectedLength * 8 := by
    simp [hfst]
  have hgetD : ∀ p, p < expectedLength * 8 →
      (voteWatermarkBits results expectedLength).1.getD p 0 = (votePos results p).1 := by
    intro p hp
    rw [hfst, List.getD_eq_getElem _ _ (by simpa using hp), List.getElem_map,
      List.getElem_range]
  refine ⟨hlen, ?_, ?_, ?_⟩
  · intro p hp
    rw [hgetD p hp, votePos_fst]
  · intro p hp hv
    rw [hgetD p hp, votePos_fst]
    simp [hv]
  · have hsnd : (voteWatermarkBits results expectedLength).2 =
        if ((List.range (expectedLength * 8)).map (fun p => (votePos results p).1)) = []
        then 0
        else ((List.range (expectedLength * 8)).map
               (fun p => if (votePos results p).2.2 then (votePos results p).2.1 else 0)).sum /
             (((List.range (expectedLength * 8)).map
               (fun p => (votePos results p).1)).length : ℚ) := by
      simp [voteWatermarkBits, hne, List.map_map, Function.comp_def]
    rw [hsnd]
    have hmap : (List.range (expectedLength * 8)).map
        (fun p => if (votePos results p).2.2 then (votePos results p).2.1 else 0) =
        (List.range (expectedLength * 8)).map (fun p =>
          if votesAt results p = [] then 0
          else
            max (((votesAt results p).filter (fun v => v.1 != 0)).map (·.2)).sum
                (((votesAt results p).filter (fun v => v.1 == 0)).map (·.2)).sum /
              ((votesAt results p).map (·.2)).sum) := by
      refine List.map_congr_left ?_
      intro p _
      exact votePos_conf results p
    rcases Nat.eq_zero_or_pos (expectedLength * 8) with h0 | hpos
    · simp [h0]
    · rw [if_neg (by simp [List.range_eq_nil]; omega)]
      rw [hmap]
      simp

/-- Witness for C4 at the claim's own example (`expected_length = 1`):
the result has `1 * 8` bit positions. -/
theorem C4_vote_amended_witness :
    (voteWatermarkBits [([1, 0, 1], 1), ([1, 1, 1], 2)] 1).1.length = 8 := by
  simpa using (C4_vote_amended [([1, 0, 1], 1), ([1, 1, 1], 2)] 1 (by simp)).1

/-- Characterisation of the branch-free test `n & (n - 1) == 0` used by the
DWT shape check: it accepts exactly 0 and the powers of two. -/
theorem land_pred_eq_zero_iff (n : ℕ) :
    (n &&& (n - 1) = 0) ↔ (n = 0 ∨ ∃ k, n = 2 ^ k) := by
  induction n using Nat.strong_induction_on with
  | _ n ih =>
    match n with
    | 0 => simp
    | 1 =>
      constructor
      · intro _; exact Or.inr ⟨0, rfl⟩
      · intro _; decide
    | n + 2 =>
      rcases Nat.even_or_odd (n + 2) with ⟨m, hm⟩ | ⟨m, hm⟩
      · -- even: n + 2 = 2 * m with m ≥ 1
        have hm' : n + 2 = 2 * m := by omega
        have hm1 : 1 ≤ m := by omega
        have h1 : n + 2 = Nat.bit false m := by simp [Nat.bit_val]; omega
        have h2 : n + 2 - 1 = Nat.bit true (m - 1) := by simp [Nat.bit_val]; omega
        have hval : (n + 2) &&& (n + 2 - 1) = Nat.bit false (m &&& (m - 1)) := by
          rw [h2, h1, Nat.land_bit]
          simp
        rw [hval]
        have ihm := ih m (by omega)
        constructor
        · intro h
          have hz : m &&& (m - 1) = 0 := by
            simpa [Nat.bit_eq_zero_iff] using h
          rcases (ihm.mp hz) with h0 | ⟨k, hk⟩
          · omega
          · exact Or.inr ⟨k + 1, by rw [pow_succ, ← hk]; omega⟩
        · rintro (h0 | ⟨k, hk⟩)
          · omega
          · rcases k with _ | k
            · omega
            · have hk' : m = 2 ^ k := by
                have : (2 : ℕ) ^ (k + 1) = 2 ^ k * 2 := pow_succ 2 k
                omega
              have hz : m &&& (m - 1) = 0 := ihm.mpr (Or.inr ⟨k, hk'⟩)
              simp [Nat.bit_eq_zero_iff, hz]
      · -- odd: n + 2 = 2 * m + 1 with m ≥ 1
        have hm1 : 1 ≤ m := by omega
        have h1 : n + 2 = Nat.bit true m := by simp [Nat.bit_val]; omega
        have h2 : n + 2 - 1 = Nat.bit false m := by simp [Nat.bit_val]; omega
        have hval : (n + 2) &&& (n + 2 - 1) = Nat.bit false m := by
          rw [h2, h1, Nat.land_bit]
          simp [Nat.and_self]
        rw [hval]
        constructor
        · intro h
          exfalso
          have : m = 0 := by simpa [Nat.bit_eq_zero_iff] using h
          omega
        · rintro (h0 | ⟨k, hk⟩)
          · omega
          · exfalso
            rcases k with _ | k
            · omega
            · have : (2 : ℕ) ^ (k + 1) = 2 ^ k * 2 := pow_succ 2 k
              omega

/-- C5 (counterexample): a grid with a zero dimension passes the DWT shape
check even though 0 is not a power of two — `extract` on the 0×0 grid
succeeds instead of failing with `InvalidArgument`. -/
theorem C5_shape_counterexample :
    dwtExtract (zeroGrid 0 0) 0 = .ok [] ∧ ¬ ∃ k : ℕ, (0 : ℕ) = 2 ^ k := by
  constructor
  · rfl
  · rintro ⟨k, hk⟩
    exact absurd hk.symm (pow_ne_zero k two_ne_zero)

/-- C5 (amended): the DWT codec's embed and extract fail with
`InvalidArgument` whenever either grid dimension is neither zero nor an
exact power of two, and proceed past the shape check (to the capacity check
or success) whenever both dimensions are zero or exact powers of two.  The
test `n & (n - 1) == 0` misclassifies 0 as acceptable. -/
theorem C5_shape_amended (g : Grid) (wm : List ℕ) (s : ℝ) (explen : ℕ) :
    ((¬ (g.rows = 0 ∨ ∃ k, g.rows = 2 ^ k) ∨ ¬ (g.cols = 0 ∨ ∃ k, g.cols = 2 ^ k)) →
      dwtEmbed g wm s = .error (.invalidArgument dwtShapeMsg) ∧
      dwtExtract g explen = .error (.invalidArgument dwtShapeMsg)) ∧
    ((g.rows = 0 ∨ ∃ k, g.rows = 2 ^ k) → (g.cols = 0 ∨ ∃ k, g.cols = 2 ^ k) →
      (dwtEmbed g wm s = .error (.invalidArgument dwtCapacityMsg) ∨
        ∃ g', dwtEmbed g wm s = .ok g') ∧
      (dwtExtract g explen = .error (.invalidArgument dwtLengthMsg) ∨
        ∃ bits, dwtExtract g explen = .ok bits)) := by
  have hrows := land_pred_eq_zero_iff g.rows
  have hcols := land_pred_eq_zero_iff g.cols
  constructor
  · intro hbad
    have hcond : ¬ dwtShapeOk g.rows ∨ ¬ dwtShapeOk g.cols := by
      rcases hbad with h | h
      · exact Or.inl (by simp [dwtShapeOk]; exact fun hz => h (hrows.mp hz))
      · exact Or.inr (by simp [dwtShapeOk]; exact fun hz => h (hcols.mp hz))
    constructor
    · simp only [dwtEmbed, if_pos hcond]
    · simp only [dwtExtract, if_pos hcond]
  · intro hr hc
    have hcond : ¬ (¬ dwtShapeOk g.rows ∨ ¬ dwtShapeOk g.cols) := by
      simp [dwtShapeOk]
      exact ⟨hrows.mpr hr, hcols.mpr hc⟩
    constructor
    · simp only [dwtEmbed, if_neg hcond]
      by_cases hlen : wm.length > (highFreqPositions g.rows g.cols).length
      · exact Or.inl (by rw [if_pos hlen])
      · exact Or.inr ⟨_, by rw [if_neg hlen]⟩
    · simp only [dwtExtract, if_neg hcond]
      by_cases hlen : explen > (highFreqPositions g.rows g.cols).length
      · exact Or.inl (by rw [if_pos hlen])
      · exact Or.inr ⟨_, by rw [if_neg hlen]⟩

/-- Witness for C5 (amended): a 3×3 grid (3 is neither 0 nor a power of two)
is rejected by both operations, and an 8×8 grid passes the shape check. -/
theorem C5_shape_amended_witness :
    (dwtEmbed (zeroGrid 3 3) [] 0 = .error (.invalidArgument dwtShapeMsg) ∧
      dwtExtract (zeroGrid 3 3) 0 = .error (.invalidArgument dwtShapeMsg)) ∧
    ((dwtEmbed (zeroGrid 8 8) [] 0 = .error (.invalidArgument dwtCapacityMsg) ∨
        ∃ g', dwtEmbed (zeroGrid 8 8) [] 0 = .ok g') ∧
      (dwtExtract (zeroGrid 8 8) 0 = .error (.invalidArgument dwtLengthMsg) ∨
        ∃ bits, dwtExtract (zeroGrid 8 8) 0 = .ok bits)) := by
  have h3 : ¬ ((3 : ℕ) = 0 ∨ ∃ k, (3 : ℕ) = 2 ^ k) := by
    rintro (h | ⟨k, hk⟩)
    · omega
    · rcases k with _ | _ | k
      · omega
      · omega
      · have h4 : (2 : ℕ) ^ (k + 2) = 2 ^ k * 4 := by ring
        have h1 : 1 ≤ (2 : ℕ) ^ k := Nat.one_le_two_pow
        omega
  refine ⟨(C5_shape_amended (zeroGrid 3 3) [] 0 0).1 (Or.inl h3), ?_⟩
  exact (C5_shape_amended (zeroGrid 8 8) [] 0 0).2 (Or.inr ⟨3, rfl⟩) (Or.inr ⟨3, rfl⟩)

/-- Length of one rectangular window of the position table. -/
theorem length_posWindow (a n b m : ℕ) :
    ((List.range' a n).flatMap (fun i => (List.range' b m).map (fun j => (i, j)))).length =
      n * m := by
  induction n generalizing a with
  | zero => simp
  | succ n ih =>
    rw [List.range'_succ]
    simp only [List.flatMap_cons, List.length_append, List.length_map, List.length_range']
    rw [ih (a + 1)]
    ring

/-- For even dimensions, the DWT position table has
`3 * min(rows/2, 4) * min(cols/2, 4)` entries. -/
theorem highFreqPositions_length_even (rows cols : ℕ)
    (hr : rows % 2 = 0) (hc : cols % 2 = 0) :
    (highFreqPositions rows cols).length =
      3 * (min (rows / 2) 4 * min (cols / 2) 4) := by
  unfold highFreqPositions
  simp only [List.length_append, length_posWindow]
  have h1 : min rows (rows / 2 + 4) - rows / 2 = min (rows / 2) 4 := by omega
  have h2 : min cols (cols / 2 + 4) - cols / 2 = min (cols / 2) 4 := by omega
  rw [h1, h2]
  ring

/-- C3 (counterexample): for the wavelet codec the spec capacity
`(pad_even(4) * pad_even(4)) / 4 = 4` does not bound `embed` — a 4×4 grid
accepts a 5-bit payload (capacity+1) instead of failing with
`InvalidArgument`, because `embed` only checks against its position-table
size (12 for a 4×4 grid). -/
theorem C3_capacity_counterexample :
    (dwtEmbed (zeroGrid 4 4) [0, 0, 0, 0, 0] 1).isOk = true ∧
    ([0, 0, 0, 0, 0] : List ℕ).length = dwtCheckCapacity 4 4 + 1 := by
  exact ⟨rfl, rfl⟩

/-- C3 (amended): for the block-transform codec the claim holds as stated
(capacity `ceil(h/8) * ceil(w/8)`); for the wavelet codec `embed` succeeds
exactly when the payload fits the high-frequency position table, whose size
is `3 * min(rows/2, 4) * min(cols/2, 4)` for even power-of-two dimensions —
not `(pad_even(w) * pad_even(h)) / 4`. -/
theorem C3_capacity_amended :
    (∀ (g : Grid) (wm : List ℕ) (s : ℝ), wm.length = dctCapacity g.rows g.cols →
      ∃ g', dctEmbed g wm s = .ok g') ∧
    (∀ (g : Grid) (wm : List ℕ) (s : ℝ), wm.length = dctCapacity g.rows g.cols + 1 →
      dctEmbed g wm s = .error (.invalidArgument dctCapacityMsg)) ∧
    (∀ (g : Grid) (wm : List ℕ) (s : ℝ), dwtShapeOk g.rows → dwtShapeOk g.cols →
      ((∃ g', dwtEmbed g wm s = .ok g') ↔
        wm.length ≤ (highFreqPositions g.rows g.cols).length)) ∧
    (∀ rows cols : ℕ, rows % 2 = 0 → cols % 2 = 0 →
      (highFreqPositions rows cols).length =
        3 * (min (rows / 2) 4 * min (cols / 2) 4)) := by
  refine ⟨?_, ?_, ?_, highFreqPositions_length_even⟩
  · intro g wm s hlen
    unfold dctCapacity at hlen
    have hno : ¬ (wm.length > divCeil g.rows 8 * divCeil g.cols 8) := by omega
    simp only [dctEmbed, if_neg hno]
    exact ⟨_, rfl⟩
  · intro g wm s hlen
    unfold dctCapacity at hlen
    simp only [dctEmbed]
    rw [if_pos (by omega)]
  · intro g wm s hrs hcs
    have hcond : ¬ (¬ dwtShapeOk g.rows ∨ ¬ dwtShapeOk g.cols) := by
      simp [hrs, hcs]
    simp only [dwtEmbed, if_neg hcond]
    by_cases hlen : wm.length > (highFreqPositions g.rows g.cols).length
    · rw [if_pos hlen]
      constructor
      · rintro ⟨g', hg'⟩
        exact absurd hg' (by simp)
      · intro h
        omega
    · rw [if_neg hlen]
      exact ⟨fun _ => by omega, fun _ => ⟨_, rfl⟩⟩

/-- Witness for C3 (amended) at concrete grids: an 8×8 grid accepts its
1-bit DCT capacity and rejects 2 bits; a 4×4 grid accepts 5 DWT bits
(position-table size 12); the 16×16 position table has 48 entries. -/
theorem C3_capacity_amended_witness :
    (dctEmbed (zeroGrid 8 8) [0] 0).isOk = true ∧
    dctEmbed (zeroGrid 8 8) [0, 0] 0 = .error (.invalidArgument dctCapacityMsg) ∧
    (dwtEmbed (zeroGrid 4 4) [0, 0, 0, 0, 0] 1).isOk = true ∧
    (highFreqPositions 16 16).length = 48 := by
  refine ⟨?_, ?_, ?_, ?_⟩
  · obtain ⟨g', hg'⟩ := C3_capacity_amended.1 (zeroGrid 8 8) [0] 0 (by decide)
    rw [hg']
    rfl
  · exact C3_capacity_amended.2.1 (zeroGrid 8 8) [0, 0] 0 (by decide)
  · obtain ⟨g', hg'⟩ :=
      (C3_capacity_amended.2.2.1 (zeroGrid 4 4) [0, 0, 0, 0, 0] 1
        (by decide) (by decide)).mpr (by decide)
    rw [hg']
    rfl
  · simpa using C3_capacity_amended.2.2.2 16 16 (by decide) (by decide)

/-- Every DWT embedding position lies outside the LL quadrant and inside one
of the 4×4 windows bordering it. -/
theorem highFreqPositions_outside_LL (rows cols : ℕ) (p : ℕ × ℕ)
    (hp : p ∈ highFreqPositions rows cols) :
    (rows / 2 ≤ p.1 ∨ cols / 2 ≤ p.2) ∧ p.1 < rows ∧ p.2 < cols ∧
      p.1 < rows / 2 + 4 ∧ p.2 < cols / 2 + 4 := by
  unfold highFreqPositions at hp
  simp only [List.mem_append, List.mem_flatMap, List.mem_map, List.mem_range'_1] at hp
  rcases hp with (⟨i, hi, j, hj, rfl⟩ | ⟨i, hi, j, hj, rfl⟩) | ⟨i, hi, j, hj, rfl⟩ <;>
    refine ⟨?_, ?_, ?_, ?_, ?_⟩ <;> simp <;> omega

/-- Folding the DWT coefficient update over positions that all avoid the LL
quadrant leaves every LL coefficient unchanged. -/
theorem dwtUpdate_foldl_preserves_LL (rows cols : ℕ) (s : ℝ)
    (l : List ((ℕ × ℕ) × ℕ)) (d : ℕ → ℕ → ℝ) (i j : ℕ)
    (hl : ∀ q ∈ l, rows / 2 ≤ q.1.1 ∨ cols / 2 ≤ q.1.2)
    (hi : i < rows / 2) (hj : j < cols / 2) :
    (l.foldl (dwtUpdateCoeff rows cols s) d) i j = d i j := by
  induction l generalizing d with
  | nil => rfl
  | cons q t ih =>
    simp only [List.foldl_cons]
    rw [ih _ (fun q' hq' => hl q' (by simp [hq']))]
    have hq := hl q (by simp)
    unfold dwtUpdateCoeff
    by_cases hb : q.1.1 < rows ∧ q.1.2 < cols
    · simp only [if_pos hb]
      rw [if_neg (by rintro ⟨rfl, rfl⟩; omega)]
    · simp only [if_neg hb]

/-- C6: every embedding position drawn from the DWT coefficient table lies in
the HH, HL or LH sub-band (row `≥ rows/2` or column `≥ cols/2`) within a 4×4
window bordering the low-frequency quadrant, and the embedding loop never
modifies any LL coefficient (row `< rows/2` and column `< cols/2`). -/
theorem C6_dwt_LL_untouched (rows cols : ℕ) :
    (∀ p ∈ highFreqPositions rows cols,
      (rows / 2 ≤ p.1 ∨ cols / 2 ≤ p.2) ∧ p.1 < rows ∧ p.2 < cols ∧
        p.1 < rows / 2 + 4 ∧ p.2 < cols / 2 + 4) ∧
    (∀ (dwt : ℕ → ℕ → ℝ) (wm : List ℕ) (s : ℝ) (i j : ℕ),
      i < rows / 2 → j < cols / 2 →
      dwtEmbedCoeffs rows cols dwt (highFreqPositions rows cols) wm s i j = dwt i j) := by
  refine ⟨highFreqPositions_outside_LL rows cols, ?_⟩
  intro dwt wm s i j hi hj
  unfold dwtEmbedCoeffs
  refine dwtUpdate_foldl_preserves_LL rows cols s _ dwt i j ?_ hi hj
  intro q hq
  have hq1 : q.1 ∈ highFreqPositions rows cols :=
    List.mem_of_mem_take (List.of_mem_zip hq).1
  exact (highFreqPositions_outside_LL rows cols q.1 hq1).1

/-- Witness for C6 on a 4×4 grid: position `(2, 2)` is in the table, and the
LL coefficient `(0, 0)` of a constant coefficient array survives a 1-bit
embed unchanged. -/
theorem C6_dwt_LL_untouched_witness :
    ((2, 2) ∈ highFreqPositions 4 4 →
      ((4 : ℕ) / 2 ≤ 2 ∨ (4 : ℕ) / 2 ≤ 2) ∧ 2 < 4 ∧ 2 < 4 ∧
        2 < 4 / 2 + 4 ∧ 2 < 4 / 2 + 4) ∧
    dwtEmbedCoeffs 4 4 (fun _ _ => (5 : ℝ)) (highFreqPositions 4 4) [1] 1 0 0 = 5 := by
  constructor
  · intro hmem
    exact (C6_dwt_LL_untouched 4 4).1 (2, 2) hmem
  · exact (C6_dwt_LL_untouched 4 4).2 (fun _ _ => (5 : ℝ)) [1] 1 0 0 (by decide) (by decide)

/-- C9: for every grid and every `expected_length` not exceeding the padded
grid's block count, the DCT codec's `extract` returns `Ok` with exactly
`expected_length` entries, each of which is 0 or 1. -/
theorem C9_dct_extract_shape (g : Grid) (explen : ℕ)
    (h : explen ≤ dctCapacity g.rows g.cols) :
    ∃ bits, dctExtract g explen = .ok bits ∧ bits.length = explen ∧
      ∀ b ∈ bits, b = 0 ∨ b = 1 := by
  have hno : ¬ (explen > divCeil g.rows 8 * divCeil g.cols 8) := by
    unfold dctCapacity at h
    omega
  simp only [dctExtract, if_neg hno]
  refine ⟨_, rfl, by simp, ?_⟩
  intro b hb
  simp only [List.mem_map] at hb
  obtain ⟨k, _, hk⟩ := hb
  split at hk
  · exact Or.inr hk.symm
  · exact Or.inl hk.symm

/-- Witness for C9 on the empty grid with `expected_length = 0`. -/
theorem C9_dct_extract_shape_witness : dctExtract (zeroGrid 0 0) 0 = .ok [] := by
  obtain ⟨bits, hbits, hlen, _⟩ := C9_dct_extract_shape (zeroGrid 0 0) 0 (by decide)
  have : bits = [] := List.length_eq_zero.mp hlen
  rw [hbits, this]

/-- A successful DCT extraction returns exactly `expected_length` bits. -/
theorem dctExtract_ok_length (g : Grid) (explen : ℕ) (bits : List ℕ)
    (h : dctExtract g explen = .ok bits) : bits.length = explen := by
  simp only [dctExtract] at h
  split at h
  · exact absurd h (by simp)
  · simp only [Except.ok.injEq] at h
    rw [← h]
    simp

/-- A successful DWT extraction returns exactly `expected_length` bits: the
`row < rows && col < cols` guard keeps every table position. -/
theorem dwtExtract_ok_length (g : Grid) (explen : ℕ) (bits : List ℕ)
    (h : dwtExtract g explen = .ok bits) : bits.length = explen := by
  simp only [dwtExtract] at h
  split at h
  · exact absurd h (by simp)
  · rename_i hshape
    split at h
    · exact absurd h (by simp)
    · rename_i hlen
      simp only [Except.ok.injEq] at h
      have hfilter : ((highFreqPositions g.rows g.cols).take explen).filter
          (fun p => decide (p.1 < g.rows ∧ p.2 < g.cols)) =
          (highFreqPositions g.rows g.cols).take explen := by
        refine List.filter_eq_self.mpr ?_
        intro p hp
        have hmem : p ∈ highFreqPositions g.rows g.cols := List.mem_of_mem_take hp
        have hb := highFreqPositions_outside_LL g.rows g.cols p hmem
        simp [hb.2.1, hb.2.2.1]
      rw [← h]
      simp only [List.length_map, hfilter, List.length_take]
      omega

/-- The vote counts after `n` identical successful extraction rounds:
position `i` holds `+n` where the extracted bit is 1 and `-n` otherwise. -/
theorem voteRound_counts (ext : Grid → ℕ → WmResult (List ℕ)) (data : Grid)
    (explen : ℕ) (bits : List ℕ) (hok : ext data explen = .ok bits)
    (hlen : bits.length = explen) (n : ℕ) :
    (List.range n).foldl (fun cs _ => voteRound (ext data explen) cs)
      (List.replicate explen (0 : ℤ)) =
    (List.range explen).map (fun i => if bits.getD i 0 = 1 then (n : ℤ) else -(n : ℤ)) := by
  induction n with
  | zero =>
    simp only [List.range_zero, List.foldl_nil, Nat.cast_zero, neg_zero, ite_self]
    symm
    rw [List.eq_replicate_iff]
    refine ⟨by simp, ?_⟩
    intro c hc
    simp only [List.mem_map] at hc
    obtain ⟨i, _, hi⟩ := hc
    exact hi.symm
  | succ n ih =>
    rw [List.range_succ, List.foldl_append, ih, List.foldl_cons, List.foldl_nil, hok]
    unfold voteRound
    apply List.ext_getElem
    · simp [List.length_mapIdx]
    · intro i h1 h2
      have hi : i < explen := by
        simpa [List.length_mapIdx] using h1
      rw [List.getElem_mapIdx]
      rw [List.getElem_map, List.getElem_range]
      rw [List.getElem_map, List.getElem_range]
      have hcond : i < bits.length := by omega
      rw [if_pos hcond]
      by_cases hb : bits.getD i 0 = 1
      · rw [if_pos hb, if_pos hb, if_pos hb]
        push_cast
        ring
      · rw [if_neg hb, if_neg hb, if_neg hb]
        push_cast
        ring

/-- Voting over identical successful rounds reproduces the extracted bits. -/
theorem extractWithVoting_ok (ext : Grid → ℕ → WmResult (List ℕ)) (data : Grid)
    (explen rounds : ℕ) (bits : List ℕ) (hr : 1 ≤ rounds)
    (hok : ext data explen = .ok bits) (hlen : bits.length = explen)
    (hbin : ∀ b ∈ bits, b = 0 ∨ b = 1) :
    extractWithVoting ext data explen rounds = .ok bits := by
  unfold extractWithVoting
  rw [if_neg (by omega), voteRound_counts ext data explen bits hok hlen rounds]
  congr 1
  rw [List.map_map]
  apply List.ext_getElem
  · simp [hlen]
  · intro i h1 h2
    rw [List.getElem_map, List.getElem_range]
    simp only [Function.comp_apply]
    have hmem : bits[i] ∈ bits := List.getElem_mem h2
    have hD : bits.getD i 0 = bits[i] := List.getD_eq_getElem bits 0 h2
    rcases hbin _ hmem with h0 | h1'
    · rw [hD, h0]
      rw [if_neg (show ¬ ((0 : ℕ) = 1) by omega)]
      rw [if_neg (show ¬ ((0 : ℤ) < -(rounds : ℤ)) by omega)]
    · rw [hD, h1']
      rw [if_pos (show (1 : ℕ) = 1 from rfl)]
      rw [if_pos (show (0 : ℤ) < (rounds : ℤ) by omega)]

/-- C10: because extraction is a pure function of the grid, a voting
extraction with `vote_rounds ≥ 1` returns exactly the bits of a single
`extract` call, for both shipped algorithms, whenever that call succeeds
with bits in `{0, 1}`. -/
theorem C10_extract_with_voting (a : AlgoChoice) (data : Grid)
    (explen rounds : ℕ) (bits : List ℕ) (hr : 1 ≤ rounds)
    (hok : algoExtract a data explen = .ok bits)
    (hbin : ∀ b ∈ bits, b = 0 ∨ b = 1) :
    extractWithVoting (algoExtract a) data explen rounds = .ok bits := by
  have hlen : bits.length = explen := by
    cases a with
    | dct => exact dctExtract_ok_length data explen bits hok
    | dwt => exact dwtExtract_ok_length data explen bits hok
  exact extractWithVoting_ok _ data explen rounds bits hr hok hlen hbin

/-- Witness for C10: one voting round over the DCT extraction from the empty
grid returns the same (empty) bit vector as the direct call. -/
theorem C10_extract_with_voting_witness :
    extractWithVoting (algoExtract .dct) (zeroGrid 0 0) 0 1 = .ok [] := by
  exact C10_extract_with_voting .dct (zeroGrid 0 0) 0 1 [] (by omega) rfl (by simp)

/-- Difference of sines as a product (telescoping kernel). -/
theorem sin_add_sub_eq (A B : ℝ) :
    Real.sin (A + B) - Real.sin (A - B) = 2 * Real.cos A * Real.sin B := by
  rw [Real.sin_add, Real.sin_sub]
  ring

/-- Product-to-sum formula for cosines. -/
theorem cos_mul_cos_eq (A B : ℝ) :
    Real.cos A * Real.cos B = (Real.cos (A + B) + Real.cos (A - B)) / 2 := by
  rw [Real.cos_add, Real.cos_sub]
  ring

/-- Telescoping evaluation of the shifted cosine sum. -/
theorem cosSum_mul_sin (n : ℕ) (θ : ℝ) :
    2 * Real.sin (θ / 2) * (∑ k ∈ Finset.range n, Real.cos ((2 * k + 1) * θ / 2)) =
      Real.sin (n * θ) := by
  have h : ∀ k : ℕ, Real.sin ((k + 1 : ℕ) * θ) - Real.sin (k * θ) =
      2 * Real.cos ((2 * k + 1) * θ / 2) * Real.sin (θ / 2) := by
    intro k
    have := sin_add_sub_eq ((2 * k + 1) * θ / 2) (θ / 2)
    have h1 : (2 * k + 1) * θ / 2 + θ / 2 = (k + 1 : ℕ) * θ := by
      push_cast
      ring
    have h2 : (2 * k + 1) * θ / 2 - θ / 2 = (k : ℕ) * θ := by
      ring
    rw [h1, h2] at this
    exact this
  calc 2 * Real.sin (θ / 2) * (∑ k ∈ Finset.range n, Real.cos ((2 * k + 1) * θ / 2))
      = ∑ k ∈ Finset.range n, (Real.sin ((k + 1 : ℕ) * θ) - Real.sin ((k : ℕ) * θ)) := by
        rw [Finset.mul_sum]
        refine Finset.sum_congr rfl ?_
        intro k _
        rw [h k]
        ring
    _ = Real.sin (n * θ) := by
        rw [Finset.sum_range_sub (fun k : ℕ => Real.sin (k * θ))]
        simp

/-- The shifted cosine sum vanishes for a nonzero frequency `t` with
`|t| < 2n`. -/
theorem cosSum_eq_zero (n : ℕ) (t : ℤ) (ht0 : t ≠ 0) (htlt : t.natAbs < 2 * n) :
    cosSum n t = 0 := by
  have hn : 0 < n := by omega
  have hnR : (n : ℝ) ≠ 0 := by positivity
  have hθ : ∀ k : ℕ, Real.pi * t * (2 * k + 1) / (2 * n) =
      (2 * k + 1) * (Real.pi * t / n) / 2 := by
    intro k
    field_simp
    ring
  have hsum : cosSum n t =
      ∑ k ∈ Finset.range n, Real.cos ((2 * k + 1) * (Real.pi * t / n) / 2) := by
    unfold cosSum
    refine Finset.sum_congr rfl ?_
    intro k _
    rw [hθ k]
  have htele := cosSum_mul_sin n (Real.pi * t / n)
  have hnθ : (n : ℝ) * (Real.pi * t / n) = t * Real.pi := by
    field_simp
    ring
  rw [hnθ, Real.sin_int_mul_pi] at htele
  have hsin : Real.sin (Real.pi * t / n / 2) ≠ 0 := by
    intro hzero
    rcases Real.sin_eq_zero_iff.mp hzero with ⟨m, hm⟩
    have hn2 : ((n : ℝ) * 2) ≠ 0 := by positivity
    have h2 : (m : ℝ) * Real.pi * ((n : ℝ) * 2) = Real.pi * t := by
      rw [hm, div_div, div_mul_cancel₀ _ hn2]
    have h2' : Real.pi * ((m : ℝ) * ((n : ℝ) * 2)) = Real.pi * (t : ℝ) := by
      linear_combination h2
    have h3 : (m : ℝ) * ((n : ℝ) * 2) = (t : ℝ) :=
      mul_left_cancel₀ Real.pi_ne_zero h2'
    have hmt : m * ((n : ℤ) * 2) = t := by exact_mod_cast h3
    have habs : t.natAbs = m.natAbs * (n * 2) := by
      rw [← hmt]
      simp [Int.natAbs_mul]
    have hm0 : m ≠ 0 := by
      intro h0
      rw [h0] at hmt
      simp at hmt
      exact ht0 hmt.symm
    have hm1 : 1 ≤ m.natAbs := by
      rcases Nat.eq_zero_or_pos m.natAbs with h | h
      · exact absurd (Int.natAbs_eq_zero.mp h) hm0
      · exact h
    have hge : n * 2 ≤ m.natAbs * (n * 2) := Nat.le_mul_of_pos_left _ (by omega)
    omega
  rw [hsum]
  rcases mul_eq_zero.mp htele with h | h
  · rcases mul_eq_zero.mp h with h2 | h2
    · norm_num at h2
    · exact absurd h2 hsin
  · exact h

/-- The shifted cosine sum at frequency 0 is `n`. -/
theorem cosSum_zero (n : ℕ) : cosSum n 0 = n := by
  unfold cosSum
  have : ∀ k ∈ Finset.range n,
      Real.cos (Real.pi * (0 : ℤ) * (2 * k + 1) / (2 * n)) = 1 := by
    intro k _
    norm_num
  rw [Finset.sum_congr rfl this]
  simp

/-- Orthogonality kernel: the sum over one block row of a product of two
table cosines reduces to two shifted cosine sums. -/
theorem cosK_orthogonal (n : ℕ) (j m : ℕ) :
    ∑ k ∈ Finset.range n,
      Real.cos (Real.pi * j * (2 * k + 1) / (2 * n)) *
        Real.cos (Real.pi * m * (2 * k + 1) / (2 * n)) =
      (cosSum n ((j : ℤ) + m) + cosSum n ((j : ℤ) - m)) / 2 := by
  have hterm : ∀ k ∈ Finset.range n,
      Real.cos (Real.pi * j * (2 * k + 1) / (2 * n)) *
        Real.cos (Real.pi * m * (2 * k + 1) / (2 * n)) =
      (Real.cos (Real.pi * (((j : ℤ) + m : ℤ) : ℝ) * (2 * k + 1) / (2 * n)) +
        Real.cos (Real.pi * (((j : ℤ) - m : ℤ) : ℝ) * (2 * k + 1) / (2 * n))) / 2 := by
    intro k _
    rw [cos_mul_cos_eq]
    have hA : Real.pi * j * (2 * k + 1) / (2 * n) + Real.pi * m * (2 * k + 1) / (2 * n) =
        Real.pi * (((j : ℤ) + m : ℤ) : ℝ) * (2 * k + 1) / (2 * n) := by
      push_cast
      ring
    have hB : Real.pi * j * (2 * k + 1) / (2 * n) - Real.pi * m * (2 * k + 1) / (2 * n) =
        Real.pi * (((j : ℤ) - m : ℤ) : ℝ) * (2 * k + 1) / (2 * n) := by
      push_cast
      ring
    rw [hA, hB]
  rw [Finset.sum_congr rfl hterm, ← Finset.sum_div, Finset.sum_add_distrib]
  unfold cosSum
  rfl

/-- DCT-II after DCT-III is multiplication by `n / 2` (rustdct's unscaled
transform conventions). -/
theorem dct2_dct3 (n : ℕ) (x : ℕ → ℝ) (m : ℕ) (hm : m < n) :
    dct2 n (dct3 n x) m = (n : ℝ) / 2 * x m := by
  have hn : 0 < n := by omega
  unfold dct2 dct3
  have hexpand : ∀ k ∈ Finset.range n,
      (x 0 / 2 + ∑ j ∈ Finset.Ico 1 n, x j * Real.cos (Real.pi * j * (2 * k + 1) / (2 * n))) *
          Real.cos (Real.pi * m * (2 * k + 1) / (2 * n)) =
        x 0 / 2 * Real.cos (Real.pi * m * (2 * k + 1) / (2 * n)) +
          ∑ j ∈ Finset.Ico 1 n, x j *
            (Real.cos (Real.pi * j * (2 * k + 1) / (2 * n)) *
              Real.cos (Real.pi * m * (2 * k + 1) / (2 * n))) := by
    intro k _
    rw [add_mul, Finset.sum_mul]
    congr 1
    refine Finset.sum_congr rfl fun j _ => ?_
    ring
  rw [Finset.sum_congr rfl hexpand, Finset.sum_add_distrib]
  have h1 : ∑ k ∈ Finset.range n, x 0 / 2 * Real.cos (Real.pi * m * (2 * k + 1) / (2 * n)) =
      x 0 / 2 * cosSum n (m : ℤ) := by
    rw [← Finset.mul_sum]
    have hcs : cosSum n (m : ℤ) =
        ∑ k ∈ Finset.range n, Real.cos (Real.pi * m * (2 * k + 1) / (2 * n)) := by
      unfold cosSum
      refine Finset.sum_congr rfl fun k _ => ?_
      norm_num
    rw [hcs]
  have h2 : ∑ k ∈ Finset.range n, ∑ j ∈ Finset.Ico 1 n, x j *
        (Real.cos (Real.pi * j * (2 * k + 1) / (2 * n)) *
          Real.cos (Real.pi * m * (2 * k + 1) / (2 * n))) =
      ∑ j ∈ Finset.Ico 1 n, x j *
        ((cosSum n ((j : ℤ) + m) + cosSum n ((j : ℤ) - m)) / 2) := by
    rw [Finset.sum_comm]
    refine Finset.sum_congr rfl fun j _ => ?_
    rw [← Finset.mul_sum, cosK_orthogonal n j m]
  rw [h1, h2]
  by_cases hm0 : m = 0
  · subst hm0
    rw [show ((0 : ℕ) : ℤ) = 0 from rfl, cosSum_zero]
    have hz : ∀ j ∈ Finset.Ico 1 n,
        x j * ((cosSum n ((j : ℤ) + 0) + cosSum n ((j : ℤ) - 0)) / 2) = 0 := by
      intro j hj
      obtain ⟨hj1, hj2⟩ := Finset.mem_Ico.mp hj
      have hza : cosSum n ((j : ℤ) + 0) = 0 :=
        cosSum_eq_zero n _ (by omega) (by omega)
      have hzb : cosSum n ((j : ℤ) - 0) = 0 :=
        cosSum_eq_zero n _ (by omega) (by omega)
      rw [hza, hzb]
      ring
    rw [Finset.sum_congr rfl hz, Finset.sum_const_zero]
    ring
  · have hc : cosSum n (m : ℤ) = 0 :=
      cosSum_eq_zero n _ (by omega) (by omega)
    rw [hc, mul_zero, zero_add]
    rw [Finset.sum_eq_single m]
    · have hza : cosSum n ((m : ℤ) + m) = 0 :=
        cosSum_eq_zero n _ (by omega) (by omega)
      have hzb : (m : ℤ) - m = 0 := by ring
      rw [hza, hzb, cosSum_zero]
      ring
    · intro j hj hne
      obtain ⟨hj1, hj2⟩ := Finset.mem_Ico.mp hj
      have hza : cosSum n ((j : ℤ) + m) = 0 :=
        cosSum_eq_zero n _ (by omega) (by omega)
      have hzb : cosSum n ((j : ℤ) - m) = 0 :=
        cosSum_eq_zero n _ (by omega) (by omega)
      rw [hza, hzb]
      ring
    · intro hnot
      exact absurd (Finset.mem_Ico.mpr ⟨by omega, hm⟩) hnot

/-- `dct2` only reads the first `n` entries. -/
theorem dct2_congr (n : ℕ) (x y : ℕ → ℝ) (k : ℕ) (h : ∀ t, t < n → x t = y t) :
    dct2 n x k = dct2 n y k := by
  unfold dct2
  refine Finset.sum_congr rfl fun t ht => ?_
  rw [h t (Finset.mem_range.mp ht)]

/-- `dct2` commutes with division by a constant. -/
theorem dct2_div (n : ℕ) (x : ℕ → ℝ) (c : ℝ) (k : ℕ) :
    dct2 n (fun t => x t / c) k = dct2 n x k / c := by
  unfold dct2
  rw [Finset.sum_div]
  refine Finset.sum_congr rfl fun t _ => ?_
  ring

/-- `dct2d` only reads the top-left `r × c` entries. -/
theorem dct2d_congr (r c : ℕ) (f g : ℕ → ℕ → ℝ) (i j : ℕ)
    (h : ∀ a b, a < r → b < c → f a b = g a b) :
    dct2d r c f i j = dct2d r c g i j := by
  show dct2 r (fun i' => dct2 c (f i') j) i = dct2 r (fun i' => dct2 c (g i') j) i
  refine dct2_congr r _ _ i fun a ha => ?_
  exact dct2_congr c _ _ j fun b hb => h a b ha hb

/-- The codec's `dct_2d` after its `idct_2d` is the identity on 8×8 blocks:
per axis DCT-II∘DCT-III multiplies by `8 / 2 = 4`, and `idct_2d` divides by
`2 * 8 = 16`. -/
theorem dct2d_idct2d_eq (E : ℕ → ℕ → ℝ) (i j : ℕ) (hi : i < 8) (hj : j < 8) :
    dct2d 8 8 (idct2d 8 8 E) i j = E i j := by
  show dct2 8 (fun i' => dct2 8
      (fun j' => dct3 8 (fun jj => dct3 8 (fun ii => E ii jj) i') j' / (2 * 8)) j) i = E i j
  have hinner : ∀ i' : ℕ,
      dct2 8 (fun j' => dct3 8 (fun jj => dct3 8 (fun ii => E ii jj) i') j' / (2 * 8)) j =
        dct3 8 (fun ii => E ii j) i' / 4 := by
    intro i'
    rw [dct2_div 8 _ (2 * 8) j, dct2_dct3 8 _ j hj]
    norm_num
    ring
  calc dct2 8 (fun i' => dct2 8
          (fun j' => dct3 8 (fun jj => dct3 8 (fun ii => E ii jj) i') j' / (2 * 8)) j) i
      = dct2 8 (fun i' => dct3 8 (fun ii => E ii j) i' / 4) i := by
        congr 1
        funext i'
        exact hinner i'
    _ = dct2 8 (dct3 8 (fun ii => E ii j)) i / 4 := dct2_div 8 _ 4 i
    _ = (8 : ℝ) / 2 * E i j / 4 := by
        rw [dct2_dct3 8 _ i hi]
        norm_num
    _ = E i j := by ring

/-- Padding leaves in-range entries untouched. -/
theorem padData_in_range (h w : ℕ) (f : ℕ → ℕ → ℝ) (i j : ℕ)
    (hi : i < h) (hj : j < w) : padData h w f i j = f i j := by
  simp [padData, hi, hj]

/-- The adaptive threshold is clamped to `[1, 5]`, so it is at least 1. -/
theorem adaptiveThreshold_ge_one (D : ℕ → ℕ → ℝ) (s : ℝ) :
    1 ≤ adaptiveThreshold D s := by
  simp only [adaptiveThreshold]
  exact le_min (le_max_right _ _) (by norm_num)

/-- At strength 0 the adaptive threshold is exactly the clamp floor 1. -/
theorem adaptiveThreshold_zero (D : ℕ → ℕ → ℝ) : adaptiveThreshold D 0 = 1 := by
  simp only [adaptiveThreshold]
  rw [mul_zero, zero_mul]
  norm_num

/-- For positive strength the embedded coefficient is strictly positive for
bit 1 and strictly negative for bit 0. -/
theorem dctUpdatedCoeff_sign (D B : ℕ → ℕ → ℝ) (u v : ℕ) (bit : ℕ) (s : ℝ)
    (hs : 0 < s) :
    (bit = 1 → 0 < dctUpdatedCoeff D B u v bit s) ∧
    (bit ≠ 1 → dctUpdatedCoeff D B u v bit s < 0) := by
  have hthr := adaptiveThreshold_ge_one D s
  have hpw : (0 : ℝ) < (if blockVariance B < 10 then (0.5 : ℝ) else 1) := by
    split <;> norm_num
  have htc : 0 < s * max |D u v| 1 *
      (if blockVariance B < 10 then (0.5 : ℝ) else 1) := by
    refine mul_pos (mul_pos hs ?_) hpw
    exact lt_max_of_lt_right one_pos
  have hmax : adaptiveThreshold D s ≤ max |D u v| (adaptiveThreshold D s) :=
    le_max_right _ _
  simp only [dctUpdatedCoeff]
  set pw := (if blockVariance B < 10 then (0.5 : ℝ) else 1) with hpwdef
  set tc := s * max |D u v| 1 * pw with htcdef
  constructor
  · intro hb
    rw [if_pos hb]
    split
    · rename_i h
      linarith
    · linarith
  · intro hb
    rw [if_neg hb]
    split
    · rename_i h
      linarith
    · linarith

/-- C2 (amended): at strength 0 the update sets the coefficient's magnitude
to exactly `max(|coeff|, 1)` with the sign dictated by the bit.  Hence the
magnitude is never increased when `|coeff| ≥ 1` — any change there is a pure
sign flip — but coefficients smaller than the adaptive-threshold floor 1 are
boosted to magnitude exactly 1. -/
theorem C2_strength0_amended (D B : ℕ → ℕ → ℝ) (u v bit : ℕ) :
    |dctUpdatedCoeff D B u v bit 0| = max |D u v| 1 ∧
    (1 ≤ |D u v| →
      dctUpdatedCoeff D B u v bit 0 = D u v ∨
        dctUpdatedCoeff D B u v bit 0 = -(D u v)) ∧
    (bit = 1 → 0 < dctUpdatedCoeff D B u v bit 0) ∧
    (bit ≠ 1 → dctUpdatedCoeff D B u v bit 0 < 0) := by
  have hval : dctUpdatedCoeff D B u v bit 0 =
      if bit = 1 then (if (1 : ℝ) ≤ D u v then D u v else max |D u v| 1)
      else (if D u v ≤ -1 then D u v else -(max |D u v| 1)) := by
    simp only [dctUpdatedCoeff, adaptiveThreshold_zero]
    rw [zero_mul, zero_mul]
    norm_num
  rw [hval]
  have hmax1 : (1 : ℝ) ≤ max |D u v| 1 := le_max_right _ _
  by_cases hb : bit = 1
  · rw [if_pos hb]
    by_cases hc : (1 : ℝ) ≤ D u v
    · rw [if_pos hc]
      have habs : |D u v| = D u v := abs_of_nonneg (by linarith)
      refine ⟨?_, fun _ => Or.inl rfl, fun _ => by linarith, fun h => absurd hb h⟩
      rw [habs]
      exact (max_eq_left (by linarith)).symm
    · rw [if_neg hc]
      refine ⟨abs_of_nonneg (by linarith), ?_, fun _ => by linarith, fun h => absurd hb h⟩
      intro hge
      right
      have hneg : D u v ≤ -1 := by
        rcases abs_cases (D u v) with ⟨h1, _⟩ | ⟨h1, _⟩
        · linarith
        · linarith
      rw [max_eq_left hge]
      rw [abs_of_nonpos (by linarith : D u v ≤ 0)]
  · rw [if_neg hb]
    by_cases hc : D u v ≤ -1
    · rw [if_pos hc]
      have habs : |D u v| = -(D u v) := abs_of_nonpos (by linarith)
      refine ⟨?_, fun _ => Or.inl rfl, fun h => absurd h hb, fun _ => by linarith⟩
      have hge : (1 : ℝ) ≤ |D u v| := by rw [habs]; linarith
      rw [max_eq_left hge]
    · rw [if_neg hc]
      refine ⟨?_, ?_, fun h => absurd h hb, fun _ => by linarith⟩
      · rw [abs_neg]
        exact abs_of_nonneg (by linarith)
      · intro hge
        right
        have hpos : (1 : ℝ) ≤ D u v := by
          rcases abs_cases (D u v) with ⟨h1, _⟩ | ⟨h1, _⟩
          · linarith
          · linarith
        rw [max_eq_left hge]
        rw [abs_of_nonneg (by linarith : (0 : ℝ) ≤ D u v)]

/-- Witness for the amended C2 at the constant DCT block with coefficient 2:
at strength 0 the magnitude is preserved and the value is `2` or `-2`. -/
theorem C2_strength0_amended_witness :
    |dctUpdatedCoeff (fun _ _ => (2 : ℝ)) (fun _ _ => 0) 2 1 1 0| = max |(2 : ℝ)| 1 ∧
    (dctUpdatedCoeff (fun _ _ => (2 : ℝ)) (fun _ _ => 0) 2 1 1 0 = 2 ∨
      dctUpdatedCoeff (fun _ _ => (2 : ℝ)) (fun _ _ => 0) 2 1 1 0 = -2) := by
  have h := C2_strength0_amended (fun _ _ => (2 : ℝ)) (fun _ _ => 0) 2 1 1
  exact ⟨h.1, by simpa using h.2.1 (by norm_num)⟩

/-- An in-capacity payload makes `dctEmbed` succeed with the block-rewritten
grid. -/
theorem dctEmbed_eq_ok (g : Grid) (wm : List ℕ) (s : ℝ)
    (hcap : wm.length ≤ dctCapacity g.rows g.cols) :
    dctEmbed g wm s = .ok ⟨g.rows, g.cols, dctEmbedData g wm s⟩ := by
  unfold dctCapacity at hcap
  unfold dctEmbed
  rw [if_neg (by omega)]

/-- Every entry of the mid-frequency table (looked up modulo 20) lies inside
an 8×8 block. -/
theorem midFreqPositions_getD_lt (i : ℕ) :
    (midFreqPositions.getD (i % 20) (0, 0)).1 < 8 ∧
      (midFreqPositions.getD (i % 20) (0, 0)).2 < 8 := by
  have hall : ∀ j, j < 20 →
      (midFreqPositions.getD j (0, 0)).1 < 8 ∧
        (midFreqPositions.getD j (0, 0)).2 < 8 := by decide
  exact hall _ (Nat.mod_lt _ (by omega))

/-- On an aligned grid, block `k < wm.length` of the embedded (and re-padded)
grid is exactly the inverse transform of the modified DCT block. -/
theorem dctEmbedData_block (g : Grid) (wm : List ℕ) (s : ℝ)
    (hrows : g.rows % 8 = 0) (hcols : g.cols % 8 = 0)
    (hcap : wm.length ≤ dctCapacity g.rows g.cols)
    (k : ℕ) (hk : k < wm.length) (a b : ℕ) (ha : a < 8) (hb : b < 8) :
    blockOf (padData g.rows g.cols (dctEmbedData g wm s)) (divCeil g.cols 8) k a b =
      idct2d 8 8 (embeddedDctBlock (padData g.rows g.cols g.data) (divCeil g.cols 8) k
        (wm.getD k 0) s) a b := by
  have hbh : g.rows = 8 * divCeil g.rows 8 := by unfold divCeil; omega
  have hbw : g.cols = 8 * divCeil g.cols 8 := by unfold divCeil; omega
  have hkb : k < divCeil g.rows 8 * divCeil g.cols 8 := by
    unfold dctCapacity at hcap
    omega
  have hbwpos : 0 < divCeil g.cols 8 := by
    rcases Nat.eq_zero_or_pos (divCeil g.cols 8) with h0 | h
    · rw [h0, Nat.mul_zero] at hkb
      omega
    · exact h
  have hdiv : k / divCeil g.cols 8 < divCeil g.rows 8 :=
    (Nat.div_lt_iff_lt_mul hbwpos).mpr hkb
  have hmod : k % divCeil g.cols 8 < divCeil g.cols 8 := Nat.mod_lt _ hbwpos
  have hi : (k / divCeil g.cols 8) * 8 + a < g.rows := by omega
  have hj : (k % divCeil g.cols 8) * 8 + b < g.cols := by omega
  show padData g.rows g.cols (dctEmbedData g wm s)
      ((k / divCeil g.cols 8) * 8 + a) ((k % divCeil g.cols 8) * 8 + b) = _
  rw [padData_in_range _ _ _ _ _ hi hj]
  have e1 : ((k / divCeil g.cols 8) * 8 + a) / 8 = k / divCeil g.cols 8 := by omega
  have e2 : ((k % divCeil g.cols 8) * 8 + b) / 8 = k % divCeil g.cols 8 := by omega
  have e3 : ((k / divCeil g.cols 8) * 8 + a) % 8 = a := by omega
  have e4 : ((k % divCeil g.cols 8) * 8 + b) % 8 = b := by omega
  have e5 : k / divCeil g.cols 8 * divCeil g.cols 8 + k % divCeil g.cols 8 = k :=
    Nat.div_add_mod' k (divCeil g.cols 8)
  simp only [dctEmbedData, e1, e2, e3, e4, e5]
  rw [if_pos ⟨hi, hj, hk⟩]

/-- C1 (amended, DCT half): for every grid whose dimensions are multiples of
the block size 8, every 0/1 payload within capacity, and every strength
`s > 0`, extracting `bits.len()` bits from the embedded grid reproduces the
payload exactly. -/
theorem C1_dct_roundtrip (g : Grid) (bits : List ℕ) (s : ℝ)
    (hrows : g.rows % 8 = 0) (hcols : g.cols % 8 = 0)
    (hbits : ∀ b ∈ bits, b = 0 ∨ b = 1)
    (hcap : bits.length ≤ dctCapacity g.rows g.cols) (hs : 0 < s) :
    dctEmbed g bits s = .ok ⟨g.rows, g.cols, dctEmbedData g bits s⟩ ∧
    dctExtract ⟨g.rows, g.cols, dctEmbedData g bits s⟩ bits.length = .ok bits := by
  refine ⟨dctEmbed_eq_ok g bits s hcap, ?_⟩
  have hno : ¬ (bits.length > divCeil g.rows 8 * divCeil g.cols 8) := by
    unfold dctCapacity at hcap
    omega
  simp only [dctExtract]
  rw [if_neg hno]
  congr 1
  apply List.ext_getElem
  · simp
  · intro k h1 h2
    rw [List.getElem_map, List.getElem_range]
    have hk : k < bits.length := h2
    obtain ⟨hu, hv⟩ := midFreqPositions_getD_lt k
    have hblock : ∀ a b, a < 8 → b < 8 →
        blockOf (padData g.rows g.cols (dctEmbedData g bits s)) (divCeil g.cols 8) k a b =
          idct2d 8 8 (embeddedDctBlock (padData g.rows g.cols g.data) (divCeil g.cols 8) k
            (bits.getD k 0) s) a b :=
      fun a b ha hb => dctEmbedData_block g bits s hrows hcols hcap k hk a b ha hb
    have hD : dct2d 8 8
        (blockOf (padData g.rows g.cols (dctEmbedData g bits s)) (divCeil g.cols 8) k)
        (midFreqPositions.getD (k % 20) (0, 0)).1
        (midFreqPositions.getD (k % 20) (0, 0)).2 =
        embeddedDctBlock (padData g.rows g.cols g.data) (divCeil g.cols 8) k
          (bits.getD k 0) s
          (midFreqPositions.getD (k % 20) (0, 0)).1
          (midFreqPositions.getD (k % 20) (0, 0)).2 := by
      rw [dct2d_congr 8 8 _ _ _ _ hblock]
      exact dct2d_idct2d_eq _ _ _ hu hv
    have hE : embeddedDctBlock (padData g.rows g.cols g.data) (divCeil g.cols 8) k
        (bits.getD k 0) s
        (midFreqPositions.getD (k % 20) (0, 0)).1
        (midFreqPositions.getD (k % 20) (0, 0)).2 =
        dctUpdatedCoeff
          (dct2d 8 8 (blockOf (padData g.rows g.cols g.data) (divCeil g.cols 8) k))
          (blockOf (padData g.rows g.cols g.data) (divCeil g.cols 8) k)
          (midFreqPositions.getD (k % 20) (0, 0)).1
          (midFreqPositions.getD (k % 20) (0, 0)).2
          (bits.getD k 0) s := by
      simp only [embeddedDctBlock]
      rw [if_pos ⟨trivial, trivial⟩]
    have hsign := dctUpdatedCoeff_sign
      (dct2d 8 8 (blockOf (padData g.rows g.cols g.data) (divCeil g.cols 8) k))
      (blockOf (padData g.rows g.cols g.data) (divCeil g.cols 8) k)
      (midFreqPositions.getD (k % 20) (0, 0)).1
      (midFreqPositions.getD (k % 20) (0, 0)).2
      (bits.getD k 0) s hs
    have hD2 : bits.getD k 0 = bits[k] := List.getD_eq_getElem bits 0 hk
    rcases hbits (bits[k]) (List.getElem_mem hk) with h0 | h1'
    · have hneg := hsign.2 (by rw [hD2, h0]; omega)
      rw [hD, hE, if_neg (by linarith)]
      exact h0.symm
    · have hpos := hsign.1 (by rw [hD2, h1'])
      rw [hD, hE, if_pos (by linarith)]
      exact h1'.symm

/-- Witness for the amended C1 theorem: an 8×8 zero grid with payload `[1]`
and strength 1 embeds and extracts back exactly `[1]`. -/
theorem C1_dct_roundtrip_witness :
    dctEmbed (zeroGrid 8 8) [1] 1 = .ok ⟨8, 8, dctEmbedData (zeroGrid 8 8) [1] 1⟩ ∧
    dctExtract ⟨8, 8, dctEmbedData (zeroGrid 8 8) [1] 1⟩ 1 = .ok [1] := by
  have h := C1_dct_roundtrip (zeroGrid 8 8) [1] 1 (by decide) (by decide)
    (by decide) (by decide) (by norm_num)
  exact h

/-- C2 (counterexample): embedding bit 1 with strength 0 into the all-zero
8×8 block raises the selected DCT coefficient from magnitude 0 to magnitude
1 (the clamp floor of the adaptive threshold), even though the source
coefficient's sign (`0 ≥ 0`, read as 1 by extraction) does not disagree with
the target bit — a magnitude boost, not a sign flip. -/
theorem C2_strength0_counterexample :
    dct2d 8 8 (fun _ _ => (0 : ℝ)) 2 1 = 0 ∧
    dctUpdatedCoeff (dct2d 8 8 (fun _ _ => 0)) (fun _ _ => 0) 2 1 1 0 = 1 ∧
    ¬ (|dctUpdatedCoeff (dct2d 8 8 (fun _ _ => 0)) (fun _ _ => 0) 2 1 1 0| ≤
        |dct2d 8 8 (fun _ _ => (0 : ℝ)) 2 1|) ∧
    dctEmbed (zeroGrid 8 8) [1] 0 = .ok ⟨8, 8, dctEmbedData (zeroGrid 8 8) [1] 0⟩ ∧
    dct2d 8 8 (blockOf (padData 8 8 (dctEmbedData (zeroGrid 8 8) [1] 0)) 1 0) 2 1 = 1 := by
  have hz : ∀ a b : ℕ, dct2d 8 8 (fun _ _ => (0 : ℝ)) a b = 0 := by
    intro a b
    simp [dct2d, dct2]
  have hval : dctUpdatedCoeff (dct2d 8 8 (fun _ _ => 0)) (fun _ _ => 0) 2 1 1 0 = 1 := by
    simp only [dctUpdatedCoeff, adaptiveThreshold_zero, hz]
    norm_num
  refine ⟨hz 2 1, hval, ?_, ?_, ?_⟩
  · rw [hval, hz 2 1]
    norm_num
  · exact dctEmbed_eq_ok (zeroGrid 8 8) [1] 0 (by decide)
  · have hone : divCeil 8 8 = 1 := rfl
    have hblock : ∀ a b, a < 8 → b < 8 →
        blockOf (padData 8 8 (dctEmbedData (zeroGrid 8 8) [1] 0)) 1 0 a b =
          idct2d 8 8 (embeddedDctBlock (padData 8 8 (fun _ _ => (0 : ℝ))) 1 0 1 0) a b := by
      intro a b ha hb
      have hx := dctEmbedData_block (zeroGrid 8 8) [1] 0 (by decide) (by decide)
        (by decide) 0 (by decide) a b ha hb
      simpa [zeroGrid, hone] using hx
    rw [dct2d_congr 8 8 _ _ 2 1 hblock, dct2d_idct2d_eq _ 2 1 (by norm_num) (by norm_num)]
    have hBeq : blockOf (padData 8 8 (fun _ _ => (0 : ℝ))) 1 0 = (fun _ _ => (0 : ℝ)) := rfl
    show (if (2 : ℕ) = 2 ∧ (1 : ℕ) = 1 then
        dctUpdatedCoeff (dct2d 8 8 (blockOf (padData 8 8 (fun _ _ => (0 : ℝ))) 1 0))
          (blockOf (padData 8 8 (fun _ _ => (0 : ℝ))) 1 0) 2 1 1 0
      else dct2d 8 8 (blockOf (padData 8 8 (fun _ _ => (0 : ℝ))) 1 0) 2 1) = 1
    rw [if_pos ⟨rfl, rfl⟩, hBeq]
    exact hval

/-- The 1-D Haar forward transform of a pointwise-zero signal is zero. -/
theorem haarForward1d_zero (n : ℕ) (x : ℕ → ℝ) (hx : ∀ i, x i = 0) (i : ℕ) :
    haarForward1d n x i = 0 := by
  unfold haarForward1d
  by_cases hc : n < 2 ∨ ¬ dwtShapeOk n
  · rw [if_pos hc]
    exact hx i
  · rw [if_neg hc]
    by_cases h1 : i < n / 2
    · simp [h1, hx]
    · by_cases h2 : i < n
      · simp [h1, h2, hx]
      · simp [h1, h2, hx]

/-- The 1-D Haar inverse transform of a pointwise-zero signal is zero. -/
theorem haarInverse1d_zero (n : ℕ) (x : ℕ → ℝ) (hx : ∀ i, x i = 0) (i : ℕ) :
    haarInverse1d n x i = 0 := by
  unfold haarInverse1d
  by_cases hc : n < 2 ∨ ¬ dwtShapeOk n
  · rw [if_pos hc]
    exact hx i
  · rw [if_neg hc]
    by_cases h1 : i < n
    · by_cases h2 : i % 2 = 0
      · simp [h1, h2, hx]
      · simp [h1, h2, hx]
    · simp [h1, hx]

/-- The 2-D Haar forward transform preserves pointwise zero. -/
theorem haarForward2d_zero (r c : ℕ) (f : ℕ → ℕ → ℝ) (hf : ∀ i j, f i j = 0)
    (i j : ℕ) : haarForward2d r c f i j = 0 := by
  unfold haarForward2d
  exact haarForward1d_zero r _ (fun i' => haarForward1d_zero c _ (fun t => hf i' t) j) i

/-- The 2-D Haar inverse transform preserves pointwise zero. -/
theorem haarInverse2d_zero (r c : ℕ) (f : ℕ → ℕ → ℝ) (hf : ∀ i j, f i j = 0)
    (i j : ℕ) : haarInverse2d r c f i j = 0 := by
  unfold haarInverse2d
  exact haarInverse1d_zero c _ (fun j' => haarInverse1d_zero r _ (fun t => hf t j') i) j

/-- Window application preserves pointwise zero. -/
theorem applyOn_zero (r c : ℕ) (t : ℕ → ℕ → (ℕ → ℕ → ℝ) → ℕ → ℕ → ℝ)
    (f : ℕ → ℕ → ℝ) (hf : ∀ i j, f i j = 0)
    (ht : ∀ g, (∀ i j, g i j = 0) → ∀ i j, t r c g i j = 0) (i j : ℕ) :
    applyOn r c t f i j = 0 := by
  unfold applyOn
  split
  · exact ht f hf i j
  · exact hf i j

/-- Multi-level forward decomposition preserves pointwise zero. -/
theorem multilevelForward_zero (l : ℕ) : ∀ (r c : ℕ) (f : ℕ → ℕ → ℝ),
    (∀ i j, f i j = 0) → ∀ i j, multilevelForward l r c f i j = 0 := by
  induction l with
  | zero => intro r c f hf i j; exact hf i j
  | succ l ih =>
    intro r c f hf i j
    unfold multilevelForward
    split
    · exact hf i j
    · exact ih (r / 2) (c / 2) _
        (fun a b => applyOn_zero r c haarForward2d f hf
          (fun g hg => haarForward2d_zero r c g hg) a b) i j

/-- Multi-level reconstruction preserves pointwise zero. -/
theorem multilevelInverse_zero (l : ℕ) : ∀ (r c : ℕ) (f : ℕ → ℕ → ℝ),
    (∀ i j, f i j = 0) → ∀ i j, multilevelInverse l r c f i j = 0 := by
  induction l with
  | zero => intro r c f hf i j; exact hf i j
  | succ l ih =>
    intro r c f hf i j
    unfold multilevelInverse
    split
    · exact ih (r / 2) (c / 2) f hf i j
    · exact applyOn_zero r c haarInverse2d _ (ih (r / 2) (c / 2) f hf)
        (fun g hg => haarInverse2d_zero r c g hg) i j

/-- The DWT coefficient-update fold preserves pointwise zero: adding or
subtracting `s * |0|` to a zero coefficient leaves it zero. -/
theorem dwtUpdate_foldl_zero (rows cols : ℕ) (s : ℝ) (l : List ((ℕ × ℕ) × ℕ))
    (d : ℕ → ℕ → ℝ) (hd : ∀ i j, d i j = 0) (i j : ℕ) :
    (l.foldl (dwtUpdateCoeff rows cols s) d) i j = 0 := by
  induction l generalizing d with
  | nil => exact hd i j
  | cons q t ih =>
    simp only [List.foldl_cons]
    refine ih _ ?_
    intro a b
    unfold dwtUpdateCoeff
    split
    · simp [hd]
    · exact hd a b

/-- C1 (counterexample): for the wavelet codec the round-trip fails on the
all-zero 2×2 grid (which satisfies the power-of-two shape constraint) with
payload `[0]` and strength 1: the embedded coefficient is
`0 - 1 * |0| = 0`, extraction reads `0 ≥ 0` as bit 1, so `[1] ≠ [0]` comes
back — embed never forces the coefficient sign. -/
theorem C1_roundtrip_counterexample :
    (dwtEmbed (zeroGrid 2 2) [0] 1).bind (fun g' => dwtExtract g' 1) = .ok [1] ∧
    (1 : ℕ) ≠ 0 := by
  refine ⟨?_, by decide⟩
  have hz : ∀ i j : ℕ, (zeroGrid 2 2).data i j = 0 := fun _ _ => rfl
  have hF : ∀ i j : ℕ, multilevelInverse 1 2 2
      (dwtEmbedCoeffs 2 2 (multilevelForward 1 2 2 (zeroGrid 2 2).data)
        (highFreqPositions 2 2) [0] 1) i j = 0 := by
    intro i j
    refine multilevelInverse_zero 1 2 2 _ ?_ i j
    intro a b
    unfold dwtEmbedCoeffs
    exact dwtUpdate_foldl_zero 2 2 1 _ _
      (fun a' b' => multilevelForward_zero 1 2 2 _ hz a' b') a b
  have hsh : ¬ (¬ dwtShapeOk (zeroGrid 2 2).rows ∨ ¬ dwtShapeOk (zeroGrid 2 2).cols) := by
    decide
  have hln : ¬ (([0] : List ℕ).length >
      (highFreqPositions (zeroGrid 2 2).rows (zeroGrid 2 2).cols).length) := by
    decide
  simp only [dwtEmbed, if_neg hsh, if_neg hln]
  show dwtExtract ⟨2, 2, multilevelInverse 1 2 2 _⟩ 1 = .ok [1]
  have hsh2 : ¬ (¬ dwtShapeOk (2 : ℕ) ∨ ¬ dwtShapeOk (2 : ℕ)) := by decide
  have hln2 : ¬ ((1 : ℕ) > (highFreqPositions 2 2).length) := by decide
  simp only [dwtExtract, if_neg hsh2, if_neg hln2]
  have hcoeff : multilevelForward 1 2 2 (multilevelInverse 1 2 2
      (dwtEmbedCoeffs 2 2 (multilevelForward 1 2 2 (zeroGrid 2 2).data)
        (highFreqPositions 2 2) [0] 1)) 1 1 = 0 :=
    multilevelForward_zero 1 2 2 _ hF 1 1
  have hpos : highFreqPositions 2 2 = [(1, 1), (0, 1), (1, 0)] := by decide
  rw [hpos]
  show Except.ok (([((1 : ℕ), (1 : ℕ))].filter (fun p => decide (p.1 < 2 ∧ p.2 < 2))).map
    (fun p => if (0 : ℝ) ≤ multilevelForward 1 2 2 (multilevelInverse 1 2 2
      (dwtEmbedCoeffs 2 2 (multilevelForward 1 2 2 (zeroGrid 2 2).data)
        (highFreqPositions 2 2) [0] 1)) p.1 p.2 then 1 else 0)) = .ok [1]
  have hfil : ([((1 : ℕ), (1 : ℕ))].filter (fun p => decide (p.1 < 2 ∧ p.2 < 2))) =
      [(1, 1)] := by decide
  rw [hfil]
  simp only [List.map_cons, List.map_nil]
  rw [if_pos (by rw [hcoeff])]

end SealRs
